import Mathlib

/-!
# Verified model of the koordinator `nodenumaresource` allocator

A shallow embedding, in Lean 4, of the NUMA-aware CPU/resource allocator of
the `nodenumaresource` scheduler plugin:

* `NodeAllocation` with its `addPodAllocation` / `release` / `update` /
  `getAvailableCPUs` / `getAvailableNUMANodeResources` operations
  (translated from `pkg/scheduler/plugins/nodenumaresource/node_allocation.go`);
* the `resourceManager` facade with `Allocate`, `Update`, `Release`,
  `GetAvailableCPUs`, and the hint generator `generateResourceHints`,
  the per-NUMA consumption step `allocateResourcesByHint` / `allocateRes`,
  and the bind-policy validators `satisfiedRequiredCPUBindPolicy`,
  `determineFullPCPUs`, `determineSpreadByPCPUs`
  (translated from `resource_manager.go`).

Modelling conventions, chosen to match the Go semantics:

* Go maps are modelled as association lists (`List (κ × ν)`) queried through
  `alook`.  Go map equality is extensional (entry order is not observable),
  so state comparisons are phrased through `alook`.
* `resource.Quantity` values are modelled as `Int` (a quantity in its milli
  scale).  `corev1.ResourceList` is an association list from resource name
  to quantity; a key that is absent denotes quantity 0, which is what every
  quota helper in the code observes.
* `cpuset.CPUSet` values are modelled as duplicate-free `List Nat`
  (the slice produced by `ToSliceNoSort`); set-ness is carried as `Nodup`
  hypotheses where a theorem needs it.
* `k8s.io/apiserver/pkg/quota/v1` helpers (`Add`,
  `SubtractWithNonNegativeResult`, `LessThanOrEqual`, `IsZero`) are external
  library code; they are modelled after their documented semantics, which the
  spec restates (notably `LessThanOrEqual` only compares resources present in
  both lists).
-/

namespace KoordNuma

/-! ## Association lists (the model of Go maps) -/

/-- First-match lookup in an association list, the model of a Go map read. -/
def alook {κ ν : Type} [DecidableEq κ] : List (κ × ν) → κ → Option ν
  | [], _ => none
  | (k', v) :: t, k => if k = k' then some v else alook t k

/-- Write a key in an association list, the model of a Go map assignment:
replace the first binding of the key, or append a new binding. -/
def alset {κ ν : Type} [DecidableEq κ] : List (κ × ν) → κ → ν → List (κ × ν)
  | [], k, v => [(k, v)]
  | (k', v') :: t, k, v => if k = k' then (k, v) :: t else (k', v') :: alset t k v

/-- Delete a key from an association list, the model of a Go map delete:
remove the first binding of the key. -/
def alerase {κ ν : Type} [DecidableEq κ] : List (κ × ν) → κ → List (κ × ν)
  | [], _ => []
  | (k', v') :: t, k => if k = k' then t else (k', v') :: alerase t k

/-- The key list of an association list. -/
def keysList {κ ν : Type} (l : List (κ × ν)) : List κ := l.map Prod.fst

/-- An association list is a faithful map representation when its keys are
distinct, which every Go map satisfies. -/
def NodupKeys {κ ν : Type} (l : List (κ × ν)) : Prop := (keysList l).Nodup

instance {κ ν : Type} [DecidableEq κ] (l : List (κ × ν)) : Decidable (NodupKeys l) := by
  unfold NodupKeys
  infer_instance

section AssocLemmas

variable {κ ν : Type} [DecidableEq κ]

theorem alook_alset_self (l : List (κ × ν)) (k : κ) (v : ν) :
    alook (alset l k v) k = some v := by
  induction l with
  | nil => simp [alset, alook]
  | cons h t ih =>
    by_cases hk : k = h.1
    · simp [alset, hk, alook]
    · simpa [alset, hk, alook] using ih

theorem alook_alset_ne (l : List (κ × ν)) (k k' : κ) (v : ν) (h : k' ≠ k) :
    alook (alset l k v) k' = alook l k' := by
  induction l with
  | nil => simp [alset, alook, h]
  | cons p t ih =>
    by_cases hk : k = p.1
    · subst hk
      simp [alset, alook, h]
    · by_cases hk' : k' = p.1
      · simp [alset, alook, hk, hk']
      · simpa [alset, alook, hk, hk'] using ih

theorem alook_alerase_ne (l : List (κ × ν)) (k k' : κ) (h : k' ≠ k) :
    alook (alerase l k) k' = alook l k' := by
  induction l with
  | nil => simp [alerase]
  | cons p t ih =>
    by_cases hk : k = p.1
    · subst hk
      simp [alerase, alook, h]
    · by_cases hk' : k' = p.1
      · simp [alerase, alook, hk, hk']
      · simpa [alerase, alook, hk, hk'] using ih

theorem alook_none_iff (l : List (κ × ν)) (k : κ) :
    alook l k = none ↔ k ∉ keysList l := by
  induction l with
  | nil => simp [alook, keysList]
  | cons p t ih =>
    by_cases hk : k = p.1
    · simp [alook, hk, keysList]
    · simpa [alook, hk, keysList, hk] using ih

theorem alook_isSome_iff (l : List (κ × ν)) (k : κ) :
    (alook l k).isSome = true ↔ k ∈ keysList l := by
  rcases h : alook l k with _ | v
  · rw [alook_none_iff] at h
    simp [h]
  · have : ¬ alook l k = none := by simp [h]
    rw [alook_none_iff] at this
    simp [h, not_not.mp this]

theorem alook_alerase_self (l : List (κ × ν)) (k : κ) (h : NodupKeys l) :
    alook (alerase l k) k = none := by
  induction l with
  | nil => simp [alerase, alook]
  | cons p t ih =>
    simp only [NodupKeys, keysList, List.map_cons, List.nodup_cons] at h
    by_cases hk : k = p.1
    · subst hk
      rw [alerase, if_pos rfl, alook_none_iff]
      exact h.1
    · rw [alerase, if_neg hk, alook, if_neg hk]
      exact ih h.2

theorem mem_keys_alset (l : List (κ × ν)) (k k' : κ) (v : ν) :
    k' ∈ keysList (alset l k v) ↔ k' = k ∨ k' ∈ keysList l := by
  induction l with
  | nil => simp [alset, keysList]
  | cons p t ih =>
    by_cases hk : k = p.1
    · subst hk
      simp [alset, keysList]
    · simp only [alset, if_neg hk, keysList, List.map_cons, List.mem_cons]
      constructor
      · rintro (h1 | h2)
        · exact Or.inr (Or.inl h1)
        · rcases ih.mp h2 with h3 | h4
          · exact Or.inl h3
          · exact Or.inr (Or.inr h4)
      · rintro (h1 | h2 | h3)
        · exact Or.inr (ih.mpr (Or.inl h1))
        · exact Or.inl h2
        · exact Or.inr (ih.mpr (Or.inr h3))

theorem nodupKeys_alset (l : List (κ × ν)) (k : κ) (v : ν) (h : NodupKeys l) :
    NodupKeys (alset l k v) := by
  induction l with
  | nil => simp [alset, NodupKeys, keysList]
  | cons p t ih =>
    simp only [NodupKeys, keysList, List.map_cons, List.nodup_cons] at h
    by_cases hk : k = p.1
    · subst hk
      simpa [alset, NodupKeys, keysList] using h
    · simp only [alset, if_neg hk, NodupKeys, keysList, List.map_cons, List.nodup_cons]
      refine ⟨?_, ih h.2⟩
      intro hmem
      rcases (mem_keys_alset t k p.1 v).mp hmem with h1 | h2
      · exact hk h1.symm
      · exact h.1 h2

theorem mem_keys_alerase (l : List (κ × ν)) (k k' : κ)
    (h : k' ∈ keysList (alerase l k)) : k' ∈ keysList l := by
  induction l with
  | nil => exact h
  | cons p t ih =>
    by_cases hk : k = p.1
    · simp only [alerase, if_pos hk] at h
      simp only [keysList, List.map_cons, List.mem_cons]
      exact Or.inr h
    · simp only [alerase, if_neg hk, keysList, List.map_cons, List.mem_cons] at h
      rcases h with h1 | h2
      · simp only [keysList, List.map_cons, List.mem_cons]
        exact Or.inl h1
      · simp only [keysList, List.map_cons, List.mem_cons]
        exact Or.inr (ih h2)

theorem nodupKeys_alerase (l : List (κ × ν)) (k : κ) (h : NodupKeys l) :
    NodupKeys (alerase l k) := by
  induction l with
  | nil => exact h
  | cons p t ih =>
    simp only [NodupKeys, keysList, List.map_cons, List.nodup_cons] at h
    by_cases hk : k = p.1
    · simp only [alerase, if_pos hk]
      exact h.2
    · simp only [alerase, if_neg hk, NodupKeys, keysList, List.map_cons, List.nodup_cons]
      exact ⟨fun hmem => h.1 (mem_keys_alerase t k p.1 hmem), ih h.2⟩

/-- Writing an absent key appends the new binding at the end. -/
theorem alset_of_absent (l : List (κ × ν)) (k : κ) (v : ν) (h : alook l k = none) :
    alset l k v = l ++ [(k, v)] := by
  induction l with
  | nil => simp [alset]
  | cons p t ih =>
    by_cases hk : k = p.1
    · simp [alook, hk] at h
    · simp only [alook, if_neg hk] at h
      simp [alset, if_neg hk, ih h]

/-- Erasing the only binding of a key appended at the end restores the list. -/
theorem alerase_append_single (l : List (κ × ν)) (k : κ) (v : ν) (h : alook l k = none) :
    alerase (l ++ [(k, v)]) k = l := by
  induction l with
  | nil => simp [alerase]
  | cons p t ih =>
    by_cases hk : k = p.1
    · simp [alook, hk] at h
    · simp only [alook, if_neg hk] at h
      simp [alerase, if_neg hk, ih h]

/-- A lookup hit on an appended fresh binding. -/
theorem alook_append_single (l : List (κ × ν)) (k : κ) (v : ν) (h : alook l k = none) :
    alook (l ++ [(k, v)]) k = some v := by
  induction l with
  | nil => simp [alook]
  | cons p t ih =>
    by_cases hk : k = p.1
    · simp [alook, hk] at h
    · simp only [alook, if_neg hk] at h
      simpa [alook, if_neg hk] using ih h

end AssocLemmas

section MoreAssoc

variable {κ ν : Type} [DecidableEq κ]

theorem alook_mem {l : List (κ × ν)} {k : κ} {v : ν} (h : alook l k = some v) :
    (k, v) ∈ l := by
  induction l with
  | nil => simp [alook] at h
  | cons p t ih =>
    by_cases hk : k = p.1
    · rw [alook, if_pos hk] at h
      subst hk
      injection h with h2
      subst h2
      exact List.mem_cons_self _ _
    · rw [alook, if_neg hk] at h
      exact List.mem_cons_of_mem _ (ih h)

theorem alook_append_of_none (x y : List (κ × ν)) (k : κ) (h : alook x k = none) :
    alook (x ++ y) k = alook y k := by
  induction x with
  | nil => simp [alook]
  | cons p t ih =>
    by_cases hk : k = p.1
    · simp [alook, hk] at h
    · rw [alook, if_neg hk] at h
      rw [List.cons_append, alook, if_neg hk]
      exact ih h

theorem alook_append_of_some (x y : List (κ × ν)) (k : κ) (v : ν)
    (h : alook x k = some v) : alook (x ++ y) k = some v := by
  induction x with
  | nil => simp [alook] at h
  | cons p t ih =>
    by_cases hk : k = p.1
    · rw [alook, if_pos hk] at h
      rw [List.cons_append, alook, if_pos hk]
      exact h
    · rw [alook, if_neg hk] at h
      rw [List.cons_append, alook, if_neg hk]
      exact ih h

theorem alook_map_keyval (l : List (κ × ν)) (g : κ → ν → ν) (k : κ) :
    alook (l.map (fun kv => (kv.1, g kv.1 kv.2))) k = (alook l k).map (g k) := by
  induction l with
  | nil => simp [alook]
  | cons p t ih =>
    by_cases hk : k = p.1
    · subst hk
      simp [alook]
    · simpa [alook, hk] using ih

theorem alook_of_mem {l : List (κ × ν)} {k : κ}
    {v : ν} (hn : NodupKeys l) (h : (k, v) ∈ l) : alook l k = some v := by
  induction l with
  | nil => simp at h
  | cons p t ih =>
    simp only [NodupKeys, keysList, List.map_cons, List.nodup_cons] at hn
    rcases List.mem_cons.mp h with h1 | h2
    · rw [← h1, alook, if_pos rfl]
    · by_cases hk : k = p.1
      · exfalso
        apply hn.1
        rw [← hk]
        exact List.mem_map_of_mem Prod.fst h2
      · rw [alook, if_neg hk]
        exact ih hn.2 h2

end MoreAssoc

/-! ## ResourceList and the `quota/v1` helpers

A `corev1.ResourceList` keyed by resource name; quantities are `Int`
(milli-scale).  `Add`, `SubtractWithNonNegativeResult`, `IsZero` and
`LessThanOrEqual` are modelled after the k8s quota library semantics the
spec relies on: `Add` sums over the union of keys;
`SubtractWithNonNegativeResult` keeps the union of keys, clamping each
difference at zero (keys only in the subtrahend get an explicit zero);
`LessThanOrEqual` compares only resources present in both lists. -/

abbrev ResourceName : Type := String

abbrev Quantity : Type := Int

abbrev ResourceList : Type := List (ResourceName × Quantity)

/-- The quantity a Go consumer reads for a resource: a missing key is 0. -/
def rlVal (l : ResourceList) (k : ResourceName) : Quantity := (alook l k).getD 0

/-- `quotav1.Add`. -/
def rlAdd (a b : ResourceList) : ResourceList :=
  b.foldl (fun acc kv => alset acc kv.1 ((alook acc kv.1).getD 0 + kv.2)) a

/-- `quotav1.SubtractWithNonNegativeResult`. -/
def rlSubNonNeg (a b : ResourceList) : ResourceList :=
  a.map (fun kv => (kv.1, max 0 (kv.2 - rlVal b kv.1))) ++
    (b.filter (fun kv => (alook a kv.1).isNone)).map (fun kv => (kv.1, (0 : Quantity)))

/-- `quotav1.IsZero`. -/
def rlIsZero (l : ResourceList) : Bool := l.all (fun kv => kv.2 == 0)

/-- `quotav1.LessThanOrEqual`: every resource of `a` that is also present in
`b` must not exceed it; resources of `a` missing from `b` are ignored. -/
def rlLeq (a b : ResourceList) : Bool :=
  a.all (fun kv =>
    match alook b kv.1 with
    | none => true
    | some w => decide (kv.2 ≤ w))

/-- Total weight of a key over all entries (used to reason about `rlAdd`
when the second operand may repeat keys). -/
def rlSum (l : ResourceList) (k : ResourceName) : Quantity :=
  (l.map (fun kv => if kv.1 = k then kv.2 else 0)).sum

section ResourceLemmas

theorem rlSum_nil (k : ResourceName) : rlSum [] k = 0 := rfl

theorem rlSum_cons (p : ResourceName × Quantity) (t : ResourceList) (k : ResourceName) :
    rlSum (p :: t) k = (if p.1 = k then p.2 else 0) + rlSum t k := by
  simp [rlSum]

theorem rlSum_eq_zero_of_not_mem (l : ResourceList) (k : ResourceName)
    (h : k ∉ keysList l) : rlSum l k = 0 := by
  induction l with
  | nil => rfl
  | cons p t ih =>
    simp only [keysList, List.map_cons, List.mem_cons, not_or] at h
    rw [rlSum_cons, if_neg (fun hp => h.1 hp.symm), ih h.2, add_zero]

theorem rlSum_eq_rlVal (l : ResourceList) (k : ResourceName) (h : NodupKeys l) :
    rlSum l k = rlVal l k := by
  induction l with
  | nil => rfl
  | cons p t ih =>
    simp only [NodupKeys, keysList, List.map_cons, List.nodup_cons] at h
    by_cases hk : p.1 = k
    · rw [rlSum_cons, if_pos hk, rlVal, alook, if_pos hk.symm, Option.getD_some,
        rlSum_eq_zero_of_not_mem t k (by rw [← hk]; exact h.1), add_zero]
    · rw [rlSum_cons, if_neg hk, rlVal, alook, if_neg (fun hkk => hk hkk.symm), zero_add]
      exact ih h.2

theorem rlVal_rlAdd (a b : ResourceList) (k : ResourceName) :
    rlVal (rlAdd a b) k = rlVal a k + rlSum b k := by
  induction b generalizing a with
  | nil => simp [rlAdd, rlSum]
  | cons p t ih =>
    have hstep : rlAdd a (p :: t) = rlAdd (alset a p.1 ((alook a p.1).getD 0 + p.2)) t := by
      simp [rlAdd]
    rw [hstep, ih]
    by_cases hk : p.1 = k
    · subst hk
      rw [rlSum_cons, if_pos rfl]
      have : rlVal (alset a p.1 ((alook a p.1).getD 0 + p.2)) p.1 = rlVal a p.1 + p.2 := by
        rw [rlVal, alook_alset_self]
        rfl
      rw [this]
      ring
    · rw [rlSum_cons, if_neg hk]
      have : rlVal (alset a p.1 ((alook a p.1).getD 0 + p.2)) k = rlVal a k := by
        rw [rlVal, alook_alset_ne _ _ _ _ (fun hkk => hk hkk.symm)]
        rfl
      rw [this]
      ring

theorem rlVal_rlAdd_nodup (a b : ResourceList) (k : ResourceName) (h : NodupKeys b) :
    rlVal (rlAdd a b) k = rlVal a k + rlVal b k := by
  rw [rlVal_rlAdd, rlSum_eq_rlVal b k h]

/-- Lookup in the clamped-zero tail of `rlSubNonNeg`. -/
theorem alook_zero_tail (a b : ResourceList) (k : ResourceName) (ha : alook a k = none) :
    alook ((b.filter (fun kv => (alook a kv.1).isNone)).map
        (fun kv => (kv.1, (0 : Quantity)))) k =
      if k ∈ keysList b then some 0 else none := by
  induction b with
  | nil => simp [alook, keysList]
  | cons p t ih =>
    by_cases hk : k = p.1
    · subst hk
      have hfa : (alook a p.1).isNone = true := by simp [ha]
      simp [List.filter_cons, hfa, alook, keysList]
    · have hcond : (k ∈ keysList (p :: t)) ↔ (k ∈ keysList t) := by
        simp [keysList, List.mem_cons, hk]
      by_cases hp : (alook a p.1).isNone = true
      · rw [List.filter_cons, if_pos hp, List.map_cons, alook, if_neg hk, ih]
        simp only [hcond]
      · rw [List.filter_cons, if_neg hp, ih]
        simp only [hcond]

theorem rlVal_rlSubNonNeg (a b : ResourceList) (k : ResourceName)
    (hb : 0 ≤ rlVal b k) :
    rlVal (rlSubNonNeg a b) k = max 0 (rlVal a k - rlVal b k) := by
  rcases hha : alook a k with _ | v
  · have hva : rlVal a k = 0 := by rw [rlVal, hha]; rfl
    have hfst : alook (a.map (fun kv => (kv.1, max 0 (kv.2 - rlVal b kv.1)))) k = none := by
      rw [alook_map_keyval a (fun k' v' => max 0 (v' - rlVal b k')) k, hha]
      rfl
    have hlook : alook (rlSubNonNeg a b) k =
        if k ∈ keysList b then some 0 else none := by
      rw [rlSubNonNeg, alook_append_of_none _ _ _ hfst, alook_zero_tail a b k hha]
    by_cases hkb : k ∈ keysList b
    · rw [rlVal, hlook, if_pos hkb, hva]
      simp only [Option.getD_some, zero_sub]
      rw [max_eq_left (neg_nonpos.mpr hb)]
    · have hvb : rlVal b k = 0 := by
        rw [rlVal, (alook_none_iff b k).mpr hkb]
        rfl
      rw [rlVal, hlook, if_neg hkb, hva, hvb]
      simp
  · have hva : rlVal a k = v := by rw [rlVal, hha]; rfl
    have hfst : alook (a.map (fun kv => (kv.1, max 0 (kv.2 - rlVal b kv.1)))) k =
        some (max 0 (v - rlVal b k)) := by
      rw [alook_map_keyval a (fun k' v' => max 0 (v' - rlVal b k')) k, hha]
      rfl
    have hlook : alook (rlSubNonNeg a b) k = some (max 0 (v - rlVal b k)) := by
      rw [rlSubNonNeg]
      exact alook_append_of_some _ _ _ _ hfst
    rw [rlVal, hlook, Option.getD_some, hva]

theorem rlSubNonNeg_nonneg (a b : ResourceList) (k : ResourceName) :
    0 ≤ rlVal (rlSubNonNeg a b) k := by
  rcases h : alook (rlSubNonNeg a b) k with _ | v
  · rw [rlVal, h]
    exact le_refl 0
  · have hmem := alook_mem h
    rw [rlVal, h, Option.getD_some]
    simp only [rlSubNonNeg, List.mem_append, List.mem_map] at hmem
    rcases hmem with ⟨kv, _, hkv⟩ | ⟨kv, _, hkv⟩
    · have : v = max 0 (kv.2 - rlVal b kv.1) := by
        have := congrArg Prod.snd hkv
        simpa using this.symm
      rw [this]
      exact le_max_left _ _
    · have : v = 0 := by
        have := congrArg Prod.snd hkv
        simpa using this.symm
      rw [this]

theorem rlIsZero_val (l : ResourceList) (k : ResourceName) (h : rlIsZero l = true) :
    rlVal l k = 0 := by
  rcases hl : alook l k with _ | v
  · rw [rlVal, hl]; rfl
  · have hmem := alook_mem hl
    simp only [rlIsZero, List.all_eq_true] at h
    have := h _ hmem
    rw [rlVal, hl, Option.getD_some]
    simpa using this

end ResourceLemmas

/-! ## CPU topology data model

Modelled from the spec (the repository's `cpu_topology.go` is not part of the
source excerpt): `CPUTopology` immutably describes, for each logical CPU id,
its core / socket / NUMA-node / L3-cache membership, plus the derived counts;
`CPUDetails` is the mutable ledger mapping a CPU id to membership, `RefCount`
and `ExclusivePolicy`.  A topology entry carries no reference count (reading
a missing Go map key yields the zero value, hence `RefCount = 0`). -/

structure CPUBase where
  coreID : Nat
  socketID : Nat
  nodeID : Nat
  l3ID : Nat
  deriving DecidableEq

def defaultCPUBase : CPUBase := ⟨0, 0, 0, 0⟩

structure CPUInfo where
  base : CPUBase
  refCount : Int
  exclusivePolicy : String
  deriving DecidableEq

abbrev CPUDetails : Type := List (Nat × CPUInfo)

structure CPUTopology where
  numCPUs : Nat
  numCores : Nat
  numSockets : Nat
  numNodes : Nat
  details : List (Nat × CPUBase)
  deriving DecidableEq

def CPUTopology.cpusPerCore (t : CPUTopology) : Nat := t.numCPUs / t.numCores

/-- Modelled from the spec: `CPUTopology.IsValid` holds iff the topology is
non-empty and `CPUsPerCore ≥ 1`. -/
def CPUTopology.isValid (t : CPUTopology) : Bool :=
  decide (0 < t.numCPUs ∧ 1 ≤ t.cpusPerCore)

structure NUMANodeResource where
  node : Nat
  resources : ResourceList
  deriving DecidableEq

structure PodAllocation where
  uid : String
  pnamespace : String
  pname : String
  cpuSet : List Nat
  cpuExclusivePolicy : String
  numaNodeResources : List NUMANodeResource
  deriving DecidableEq

/-! ## NodeAllocation (from `node_allocation.go`) -/

structure NodeAllocation where
  nodeName : String
  allocatedPods : List (String × PodAllocation)
  allocatedCPUs : CPUDetails
  allocatedResources : List (Nat × NUMANodeResource)
  deriving DecidableEq

def NewNodeAllocation (nodeName : String) : NodeAllocation :=
  { nodeName := nodeName, allocatedPods := [], allocatedCPUs := [], allocatedResources := [] }

/-- One iteration of the CPU loop of `addPodAllocation`: take the ledger entry
(falling back to the topology's entry, i.e. the Go zero value when absent
there too), stamp the pod's exclusive policy, and increment the reference
count. -/
def incr1 (cpuTopology : CPUTopology) (policy : String) (c : Nat) :
    Option CPUInfo → CPUInfo
  | some i => { i with exclusivePolicy := policy, refCount := i.refCount + 1 }
  | none =>
    { base := (alook cpuTopology.details c).getD defaultCPUBase
      refCount := 1
      exclusivePolicy := policy }

/-- The CPU loop of `addPodAllocation`. -/
def addCPUsLoop (cpuTopology : CPUTopology) (policy : String) :
    CPUDetails → List Nat → CPUDetails
  | cpus, [] => cpus
  | cpus, c :: rest =>
    addCPUsLoop cpuTopology policy
      (alset cpus c (incr1 cpuTopology policy c (alook cpus c))) rest

/-- One iteration of the CPU loop of `release` (also of the `preferredCPUs`
loop of `getAvailableCPUs`, whose body is identical): decrement the reference
count, deleting the entry when it reaches zero; a CPU absent from the ledger
is skipped. -/
def decrStep (cpus : CPUDetails) (c : Nat) : CPUDetails :=
  match alook cpus c with
  | none => cpus
  | some i =>
    if i.refCount - 1 = 0 then alerase cpus c
    else alset cpus c { i with refCount := i.refCount - 1 }

/-- The CPU loop of `release` / `getAvailableCPUs`. -/
def decrCPUs : CPUDetails → List Nat → CPUDetails
  | cpus, [] => cpus
  | cpus, c :: rest => decrCPUs (decrStep cpus c) rest

/-- One iteration of the NUMA-resource loop of `addPodAllocation`.  `idx` is
the slice index: the Go code seeds a freshly created entry's `Node` field
with the loop index (`for nodeID, numaNodeRes := range ...`). -/
def addRes1 (idx : Nat) (o : Option NUMANodeResource) (w : ResourceList) :
    NUMANodeResource :=
  match o with
  | some r => { r with resources := rlAdd r.resources w }
  | none => { node := idx, resources := rlAdd [] w }

/-- The NUMA-resource loop of `addPodAllocation`. -/
def addResLoop :
    List (Nat × NUMANodeResource) → Nat → List NUMANodeResource →
      List (Nat × NUMANodeResource)
  | res, _, [] => res
  | res, idx, nr :: rest =>
    addResLoop (alset res nr.node (addRes1 idx (alook res nr.node) nr.resources))
      (idx + 1) rest

/-- One iteration of the NUMA-resource loop of `release`: subtract with
non-negative clamping; entries are never deleted. -/
def subResStep (res : List (Nat × NUMANodeResource)) (nr : NUMANodeResource) :
    List (Nat × NUMANodeResource) :=
  match alook res nr.node with
  | none => res
  | some r => alset res nr.node { r with resources := rlSubNonNeg r.resources nr.resources }

/-- The NUMA-resource loop of `release`. -/
def subResLoop :
    List (Nat × NUMANodeResource) → List NUMANodeResource →
      List (Nat × NUMANodeResource)
  | res, [] => res
  | res, nr :: rest => subResLoop (subResStep res nr) rest

def NodeAllocation.addPodAllocation (n : NodeAllocation) (request : PodAllocation)
    (cpuTopology : CPUTopology) : NodeAllocation :=
  if (alook n.allocatedPods request.uid).isSome then n
  else
    { n with
      allocatedPods := alset n.allocatedPods request.uid request
      allocatedCPUs :=
        addCPUsLoop cpuTopology request.cpuExclusivePolicy n.allocatedCPUs request.cpuSet
      allocatedResources := addResLoop n.allocatedResources 0 request.numaNodeResources }

def NodeAllocation.release (n : NodeAllocation) (podUID : String) : NodeAllocation :=
  match alook n.allocatedPods podUID with
  | none => n
  | some request =>
    { n with
      allocatedPods := alerase n.allocatedPods podUID
      allocatedCPUs := decrCPUs n.allocatedCPUs request.cpuSet
      allocatedResources := subResLoop n.allocatedResources request.numaNodeResources }

def NodeAllocation.update (n : NodeAllocation) (allocation : PodAllocation)
    (cpuTopology : CPUTopology) : NodeAllocation :=
  (n.release allocation.uid).addPodAllocation allocation cpuTopology

def NodeAllocation.getCPUs (n : NodeAllocation) (podUID : String) : Option (List Nat) :=
  (alook n.allocatedPods podUID).map PodAllocation.cpuSet

/-- `NodeAllocation.getAvailableCPUs`: clone the ledger, run the decrement
loop over `preferredCPUs`, collect the CPUs whose reference count reached
`maxRefCount`, and subtract them and the reserved CPUs from the topology's
CPU set. -/
def NodeAllocation.getAvailableCPUs (n : NodeAllocation) (cpuTopology : CPUTopology)
    (maxRefCount : Int) (reservedCPUs preferredCPUs : List Nat) :
    List Nat × CPUDetails :=
  let allocateInfo := decrCPUs n.allocatedCPUs preferredCPUs
  let allocated := (keysList allocateInfo).filter
    (fun c => decide (maxRefCount ≤ ((alook allocateInfo c).map CPUInfo.refCount).getD 0))
  let availableCPUs :=
    ((keysList cpuTopology.details).filter (fun c => decide (c ∉ allocated))).filter
      (fun c => decide (c ∉ reservedCPUs))
  (availableCPUs, allocateInfo)

/-! ## Pointwise characterisation of the ledger loops -/

/-- The effect of one decrement iteration on the entry it touches. -/
def decr1 : Option CPUInfo → Option CPUInfo
  | none => none
  | some i =>
    if i.refCount - 1 = 0 then none else some { i with refCount := i.refCount - 1 }

section LoopLemmas

theorem decrStep_alook_self (cpus : CPUDetails) (c : Nat) (hn : NodupKeys cpus) :
    alook (decrStep cpus c) c = decr1 (alook cpus c) := by
  rcases h : alook cpus c with _ | i
  · simp [decrStep, decr1, h]
  · simp only [decrStep, decr1, h]
    by_cases hz : i.refCount - 1 = 0
    · rw [if_pos hz, if_pos hz]
      exact alook_alerase_self cpus c hn
    · rw [if_neg hz, if_neg hz]
      exact alook_alset_self cpus c _

theorem decrStep_alook_ne (cpus : CPUDetails) (c c' : Nat) (h : c' ≠ c) :
    alook (decrStep cpus c) c' = alook cpus c' := by
  rcases hh : alook cpus c with _ | i
  · simp [decrStep, hh]
  · simp only [decrStep, hh]
    by_cases hz : i.refCount - 1 = 0
    · rw [if_pos hz]
      exact alook_alerase_ne cpus c c' h
    · rw [if_neg hz]
      exact alook_alset_ne cpus c c' _ h

theorem nodupKeys_decrStep (cpus : CPUDetails) (c : Nat) (hn : NodupKeys cpus) :
    NodupKeys (decrStep cpus c) := by
  rcases hh : alook cpus c with _ | i
  · simpa [decrStep, hh] using hn
  · simp only [decrStep, hh]
    by_cases hz : i.refCount - 1 = 0
    · rw [if_pos hz]
      exact nodupKeys_alerase cpus c hn
    · rw [if_neg hz]
      exact nodupKeys_alset cpus c _ hn

theorem nodupKeys_decrCPUs (cpus : CPUDetails) (l : List Nat) (hn : NodupKeys cpus) :
    NodupKeys (decrCPUs cpus l) := by
  induction l generalizing cpus with
  | nil => exact hn
  | cons c rest ih =>
    rw [decrCPUs]
    exact ih _ (nodupKeys_decrStep cpus c hn)

theorem decrCPUs_alook_of_not_mem (cpus : CPUDetails) (l : List Nat) (c : Nat)
    (hc : c ∉ l) : alook (decrCPUs cpus l) c = alook cpus c := by
  induction l generalizing cpus with
  | nil => rfl
  | cons c0 rest ih =>
    simp only [List.mem_cons, not_or] at hc
    rw [decrCPUs, ih _ hc.2]
    exact decrStep_alook_ne cpus c0 c hc.1

theorem decrCPUs_alook (cpus : CPUDetails) (l : List Nat) (hn : NodupKeys cpus)
    (hl : l.Nodup) (c : Nat) :
    alook (decrCPUs cpus l) c =
      if c ∈ l then decr1 (alook cpus c) else alook cpus c := by
  induction l generalizing cpus with
  | nil => simp [decrCPUs]
  | cons c0 rest ih =>
    simp only [List.nodup_cons] at hl
    by_cases hcc : c = c0
    · subst hcc
      rw [decrCPUs, decrCPUs_alook_of_not_mem _ _ _ hl.1,
        decrStep_alook_self cpus c hn, if_pos (List.mem_cons_self c rest)]
    · rw [decrCPUs, ih _ (nodupKeys_decrStep cpus c0 hn) hl.2,
        decrStep_alook_ne cpus c0 c hcc]
      by_cases hcr : c ∈ rest
      · rw [if_pos hcr, if_pos (List.mem_cons_of_mem c0 hcr)]
      · rw [if_neg hcr, if_neg (by simp [hcc, hcr])]

theorem nodupKeys_addCPUsLoop (cpuTopology : CPUTopology) (policy : String)
    (cpus : CPUDetails) (l : List Nat) (hn : NodupKeys cpus) :
    NodupKeys (addCPUsLoop cpuTopology policy cpus l) := by
  induction l generalizing cpus with
  | nil => exact hn
  | cons c rest ih =>
    rw [addCPUsLoop]
    exact ih _ (nodupKeys_alset cpus c _ hn)

theorem addCPUsLoop_alook_of_not_mem (cpuTopology : CPUTopology) (policy : String)
    (cpus : CPUDetails) (l : List Nat) (c : Nat) (hc : c ∉ l) :
    alook (addCPUsLoop cpuTopology policy cpus l) c = alook cpus c := by
  induction l generalizing cpus with
  | nil => rfl
  | cons c0 rest ih =>
    simp only [List.mem_cons, not_or] at hc
    rw [addCPUsLoop, ih _ hc.2]
    exact alook_alset_ne cpus c0 c _ hc.1

theorem addCPUsLoop_alook (cpuTopology : CPUTopology) (policy : String)
    (cpus : CPUDetails) (l : List Nat) (hl : l.Nodup) (c : Nat) :
    alook (addCPUsLoop cpuTopology policy cpus l) c =
      if c ∈ l then some (incr1 cpuTopology policy c (alook cpus c))
      else alook cpus c := by
  induction l generalizing cpus with
  | nil => simp [addCPUsLoop]
  | cons c0 rest ih =>
    simp only [List.nodup_cons] at hl
    by_cases hcc : c = c0
    · subst hcc
      rw [addCPUsLoop, addCPUsLoop_alook_of_not_mem _ _ _ _ _ hl.1,
        alook_alset_self, if_pos (List.mem_cons_self c rest)]
    · rw [addCPUsLoop, ih _ hl.2, alook_alset_ne cpus c0 c _ hcc]
      by_cases hcr : c ∈ rest
      · rw [if_pos hcr, if_pos (List.mem_cons_of_mem c0 hcr)]
      · rw [if_neg hcr, if_neg (by simp [hcc, hcr])]

theorem subResLoop_alook_of_not_node (res : List (Nat × NUMANodeResource))
    (l : List NUMANodeResource) (n0 : Nat) (h : ∀ nr ∈ l, nr.node ≠ n0) :
    alook (subResLoop res l) n0 = alook res n0 := by
  induction l generalizing res with
  | nil => rfl
  | cons nr rest ih =>
    rw [subResLoop, ih _ (fun x hx => h x (List.mem_cons_of_mem nr hx))]
    rcases hh : alook res nr.node with _ | r
    · simp [subResStep, hh]
    · rw [subResStep, hh]
      exact alook_alset_ne res nr.node n0 _
        (fun he => h nr (List.mem_cons_self nr rest) he.symm)

theorem subResLoop_alook_mem (res : List (Nat × NUMANodeResource))
    (l : List NUMANodeResource) (hl : (l.map NUMANodeResource.node).Nodup)
    (nr : NUMANodeResource) (hmem : nr ∈ l) :
    alook (subResLoop res l) nr.node =
      (alook res nr.node).map
        (fun r => { r with resources := rlSubNonNeg r.resources nr.resources }) := by
  induction l generalizing res with
  | nil => simp at hmem
  | cons p rest ih =>
    simp only [List.map_cons, List.nodup_cons] at hl
    rcases List.mem_cons.mp hmem with heq | hrest
    · subst heq
      have hnot : ∀ x ∈ rest, x.node ≠ nr.node := by
        intro x hx he
        exact hl.1 (he ▸ List.mem_map_of_mem NUMANodeResource.node hx)
      rw [subResLoop, subResLoop_alook_of_not_node _ _ _ hnot]
      rcases hh : alook res nr.node with _ | r
      · simp [subResStep, hh]
      · rw [subResStep, hh, alook_alset_self]
        simp
    · have hne : p.node ≠ nr.node := by
        intro he
        exact hl.1 (he ▸ List.mem_map_of_mem NUMANodeResource.node hrest)
      have hstep : alook (subResStep res p) nr.node = alook res nr.node := by
        rcases hh : alook res p.node with _ | r
        · simp [subResStep, hh]
        · rw [subResStep, hh]
          exact alook_alset_ne res p.node nr.node _ (fun he => hne he.symm)
      rw [subResLoop, ih _ hl.2 hrest, hstep]

theorem addResLoop_alook_of_not_node (res : List (Nat × NUMANodeResource))
    (idx : Nat) (l : List NUMANodeResource) (n0 : Nat) (h : ∀ nr ∈ l, nr.node ≠ n0) :
    alook (addResLoop res idx l) n0 = alook res n0 := by
  induction l generalizing res idx with
  | nil => rfl
  | cons nr rest ih =>
    rw [addResLoop, ih _ _ (fun x hx => h x (List.mem_cons_of_mem nr hx))]
    exact alook_alset_ne res nr.node n0 _
      (fun he => h nr (List.mem_cons_self nr rest) he.symm)

theorem addResLoop_alook_mem (res : List (Nat × NUMANodeResource)) (idx : Nat)
    (l : List NUMANodeResource) (hl : (l.map NUMANodeResource.node).Nodup)
    (nr : NUMANodeResource) (hmem : nr ∈ l) :
    ∃ m, alook (addResLoop res idx l) nr.node = some m ∧
      (∀ r, alook res nr.node = some r → m.node = r.node) ∧
      (∀ k, rlVal m.resources k =
        ((alook res nr.node).map (fun r => rlVal r.resources k)).getD 0 +
          rlSum nr.resources k) := by
  induction l generalizing res idx with
  | nil => simp at hmem
  | cons p rest ih =>
    simp only [List.map_cons, List.nodup_cons] at hl
    rcases List.mem_cons.mp hmem with heq | hrest
    · subst heq
      have hnot : ∀ x ∈ rest, x.node ≠ nr.node := by
        intro x hx he
        exact hl.1 (he ▸ List.mem_map_of_mem NUMANodeResource.node hx)
      rw [addResLoop]
      refine ⟨addRes1 idx (alook res nr.node) nr.resources, ?_, ?_, ?_⟩
      · rw [addResLoop_alook_of_not_node _ _ _ _ hnot, alook_alset_self]
      · intro r hr
        rw [hr]
        simp [addRes1]
      · intro k
        rcases hh : alook res nr.node with _ | r
        · simp only [addRes1, rlVal_rlAdd]
          simp [rlVal, alook]
        · simp only [addRes1, rlVal_rlAdd]
          simp
    · have hne : p.node ≠ nr.node := by
        intro he
        exact hl.1 (he ▸ List.mem_map_of_mem NUMANodeResource.node hrest)
      have hstep : alook (alset res p.node (addRes1 idx (alook res p.node) p.resources))
          nr.node = alook res nr.node :=
        alook_alset_ne res p.node nr.node _ (fun he => hne he.symm)
      rw [addResLoop]
      rcases ih (alset res p.node (addRes1 idx (alook res p.node) p.resources))
          (idx + 1) hl.2 hrest with ⟨m, h1, h2, h3⟩
      refine ⟨m, h1, ?_, ?_⟩
      · intro r hr
        exact h2 r (by rw [hstep]; exact hr)
      · intro k
        rw [h3 k, hstep]

end LoopLemmas

/-! ## The reference-count invariant (claim C1) -/

/-- An operation on a `NodeAllocation`: `resourceManager.Update` /
`resourceManager.Release` reach the ledger as `update` and `release`. -/
inductive NodeOp where
  | upd : PodAllocation → NodeOp
  | rel : String → NodeOp
  deriving DecidableEq

def applyOp (cpuTopology : CPUTopology) (s : NodeAllocation) : NodeOp → NodeAllocation
  | NodeOp.upd a => s.update a cpuTopology
  | NodeOp.rel u => s.release u

def applyOps (cpuTopology : CPUTopology) (s : NodeAllocation) :
    List NodeOp → NodeAllocation
  | [] => s
  | op :: rest => applyOps cpuTopology (applyOp cpuTopology s op) rest

/-- A well-formed operation carries a genuine CPU set: `cpuset.CPUSet` cannot
hold a CPU id twice, which the list model states as `Nodup`. -/
def opWF : NodeOp → Bool
  | NodeOp.upd a => decide a.cpuSet.Nodup
  | NodeOp.rel _ => true

/-- The reference count recorded for CPU `c` (0 when absent). -/
def refVal (s : NodeAllocation) (c : Nat) : Int :=
  ((alook s.allocatedCPUs c).map CPUInfo.refCount).getD 0

/-- How many recorded pod allocations contain CPU `c`. -/
def podMultL (l : List (String × PodAllocation)) (c : Nat) : Nat :=
  (l.filter (fun p => decide (c ∈ p.2.cpuSet))).length

def podMultiplicity (s : NodeAllocation) (c : Nat) : Nat :=
  podMultL s.allocatedPods c

/-- The inductive invariant: ledger keys are unique, every stored CPU set is
duplicate-free, each reference count equals the pod multiplicity, and every
recorded reference count is at least 1. -/
def CPUInv (s : NodeAllocation) : Prop :=
  NodupKeys s.allocatedPods ∧ NodupKeys s.allocatedCPUs ∧
  (∀ p ∈ s.allocatedPods, p.2.cpuSet.Nodup) ∧
  (∀ c, refVal s c = (podMultiplicity s c : Int)) ∧
  (∀ c i, alook s.allocatedCPUs c = some i → 1 ≤ i.refCount)

section InvariantLemmas

theorem podMultL_append (l1 l2 : List (String × PodAllocation)) (c : Nat) :
    podMultL (l1 ++ l2) c = podMultL l1 c + podMultL l2 c := by
  simp [podMultL, List.filter_append]

theorem podMultL_single (u : String) (a : PodAllocation) (c : Nat) :
    podMultL [(u, a)] c = if c ∈ a.cpuSet then 1 else 0 := by
  by_cases h : c ∈ a.cpuSet
  · simp [podMultL, List.filter_cons, h]
  · simp [podMultL, List.filter_cons, h]

theorem alerase_decomp (l : List (String × PodAllocation)) (u : String)
    (v : PodAllocation) (h : alook l u = some v) :
    ∃ l1 l2, l = l1 ++ (u, v) :: l2 ∧ alerase l u = l1 ++ l2 := by
  induction l with
  | nil => simp [alook] at h
  | cons p t ih =>
    by_cases hk : u = p.1
    · rw [alook, if_pos hk] at h
      injection h with h2
      refine ⟨[], t, ?_, ?_⟩
      · rw [List.nil_append, hk, ← h2]
      · simp [alerase, hk]
    · rw [alook, if_neg hk] at h
      rcases ih h with ⟨l1, l2, hdec, herase⟩
      refine ⟨p :: l1, l2, by simp [hdec], ?_⟩
      rw [alerase, if_neg hk, herase]
      simp

theorem alerase_subset {κ ν : Type} [DecidableEq κ] (l : List (κ × ν)) (k : κ) :
    ∀ x ∈ alerase l k, x ∈ l := by
  induction l with
  | nil => simp [alerase]
  | cons p t ih =>
    intro x hx
    by_cases hk : k = p.1
    · rw [alerase, if_pos hk] at hx
      exact List.mem_cons_of_mem p hx
    · rw [alerase, if_neg hk] at hx
      rcases List.mem_cons.mp hx with h1 | h2
      · exact h1 ▸ List.mem_cons_self p t
      · exact List.mem_cons_of_mem p (ih x h2)

theorem cpuInv_release (s : NodeAllocation) (u : String) (h : CPUInv s) :
    CPUInv (s.release u) := by
  obtain ⟨hp, hc, hsets, hcount, hpos⟩ := h
  rcases hu : alook s.allocatedPods u with _ | a
  · rw [NodeAllocation.release, hu]
    exact ⟨hp, hc, hsets, hcount, hpos⟩
  · have haset : a.cpuSet.Nodup := hsets (u, a) (alook_mem hu)
    rcases alerase_decomp s.allocatedPods u a hu with ⟨l1, l2, hdec, herase⟩
    have hmult : ∀ c, podMultL s.allocatedPods c =
        podMultL (l1 ++ l2) c + (if c ∈ a.cpuSet then 1 else 0) := by
      intro c
      rw [hdec, podMultL_append, podMultL_append]
      rw [show ((u, a) :: l2) = [(u, a)] ++ l2 from rfl, podMultL_append,
        podMultL_single]
      ring
    simp only [NodeAllocation.release, hu]
    refine ⟨?_, ?_, ?_, ?_, ?_⟩
    · exact nodupKeys_alerase _ _ hp
    · exact nodupKeys_decrCPUs _ _ hc
    · intro p hmem
      exact hsets p (alerase_subset _ _ p hmem)
    · intro c
      have hdc := decrCPUs_alook s.allocatedCPUs a.cpuSet hc haset c
      by_cases hca : c ∈ a.cpuSet
      · have hcount1 : refVal s c = (podMultiplicity s c : Int) := hcount c
        have hge : 1 ≤ podMultiplicity s c := by
          unfold podMultiplicity
          rw [hmult c, if_pos hca]
          omega
        rcases hsome : alook s.allocatedCPUs c with _ | i
        · exfalso
          unfold refVal at hcount1
          rw [hsome] at hcount1
          simp at hcount1
          omega
        · have hrc : i.refCount = (podMultiplicity s c : Int) := by
            unfold refVal at hcount1
            rw [hsome] at hcount1
            simpa using hcount1
          unfold refVal podMultiplicity
          simp only [hdc, if_pos hca, hsome, decr1, herase]
          by_cases hz : i.refCount - 1 = 0
          · rw [if_pos hz]
            have : podMultiplicity s c = 1 := by
              have := hrc
              unfold podMultiplicity at this
              omega
            unfold podMultiplicity at this
            rw [hmult c, if_pos hca] at this
            simp only [Option.map_none', Option.getD_none]
            omega
          · rw [if_neg hz]
            simp only [Option.map_some', Option.getD_some]
            have hm := hmult c
            rw [if_pos hca] at hm
            unfold podMultiplicity at hrc
            rw [hm] at hrc
            push_cast at hrc
            omega
      · unfold refVal podMultiplicity
        simp only [hdc, if_neg hca, herase]
        have hm := hmult c
        rw [if_neg hca] at hm
        have := hcount c
        unfold refVal podMultiplicity at this
        rw [hm] at this
        simpa using this
    · intro c i hi
      have hdc := decrCPUs_alook s.allocatedCPUs a.cpuSet hc haset c
      by_cases hca : c ∈ a.cpuSet
      · rw [hdc, if_pos hca] at hi
        rcases hsome : alook s.allocatedCPUs c with _ | j
        · rw [hsome] at hi
          simp [decr1] at hi
        · rw [hsome, decr1] at hi
          by_cases hz : j.refCount - 1 = 0
          · rw [if_pos hz] at hi
            exact absurd hi (by simp)
          · rw [if_neg hz] at hi
            injection hi with hi2
            have h1 := hpos c j hsome
            have h2 : i.refCount = j.refCount - 1 := by rw [← hi2]
            omega
      · rw [hdc, if_neg hca] at hi
        exact hpos c i hi

theorem cpuInv_addPod (s : NodeAllocation) (a : PodAllocation)
    (cpuTopology : CPUTopology) (h : CPUInv s) (hset : a.cpuSet.Nodup) :
    CPUInv (s.addPodAllocation a cpuTopology) := by
  obtain ⟨hp, hc, hsets, hcount, hpos⟩ := h
  by_cases hguard : (alook s.allocatedPods a.uid).isSome
  · rw [NodeAllocation.addPodAllocation, if_pos hguard]
    exact ⟨hp, hc, hsets, hcount, hpos⟩
  · rw [NodeAllocation.addPodAllocation, if_neg hguard]
    have habsent : alook s.allocatedPods a.uid = none := by
      rcases hh : alook s.allocatedPods a.uid with _ | v
      · rfl
      · rw [hh] at hguard
        simp at hguard
    have happend := alset_of_absent s.allocatedPods a.uid a habsent
    refine ⟨?_, ?_, ?_, ?_, ?_⟩
    · exact nodupKeys_alset _ _ _ hp
    · exact nodupKeys_addCPUsLoop _ _ _ _ hc
    · intro p hmem
      rw [happend] at hmem
      rcases List.mem_append.mp hmem with h1 | h2
      · exact hsets p h1
      · have : p = (a.uid, a) := by simpa using h2
        rw [this]
        exact hset
    · intro c
      have hadd := addCPUsLoop_alook cpuTopology a.cpuExclusivePolicy
        s.allocatedCPUs a.cpuSet hset c
      unfold refVal podMultiplicity
      simp only [hadd, happend, podMultL_append, podMultL_single]
      by_cases hca : c ∈ a.cpuSet
      · rw [if_pos hca, if_pos hca]
        have hc0 := hcount c
        unfold refVal podMultiplicity at hc0
        rcases hsome : alook s.allocatedCPUs c with _ | i
        · rw [hsome] at hc0
          simp at hc0
          simp [incr1]
          omega
        · rw [hsome] at hc0
          simp only [Option.map_some', Option.getD_some] at hc0
          simp [incr1]
          omega
      · rw [if_neg hca, if_neg hca]
        have hc0 := hcount c
        unfold refVal podMultiplicity at hc0
        rw [hc0]
        push_cast
        ring
    · intro c i hi
      have hadd := addCPUsLoop_alook cpuTopology a.cpuExclusivePolicy
        s.allocatedCPUs a.cpuSet hset c
      by_cases hca : c ∈ a.cpuSet
      · rw [hadd, if_pos hca] at hi
        injection hi with hi2
        rcases hsome : alook s.allocatedCPUs c with _ | j
        · rw [hsome] at hi2
          simp only [incr1] at hi2
          have h2 : i.refCount = 1 := by rw [← hi2]
          omega
        · rw [hsome] at hi2
          simp only [incr1] at hi2
          have h1 := hpos c j hsome
          have h2 : i.refCount = j.refCount + 1 := by rw [← hi2]
          omega
      · rw [hadd, if_neg hca] at hi
        exact hpos c i hi

theorem cpuInv_applyOp (cpuTopology : CPUTopology) (s : NodeAllocation)
    (op : NodeOp) (h : CPUInv s) (hop : opWF op = true) :
    CPUInv (applyOp cpuTopology s op) := by
  cases op with
  | upd a =>
    have hset : a.cpuSet.Nodup := by simpa [opWF] using hop
    exact cpuInv_addPod _ a cpuTopology (cpuInv_release s a.uid h) hset
  | rel u => exact cpuInv_release s u h

theorem cpuInv_applyOps (cpuTopology : CPUTopology) (s : NodeAllocation)
    (ops : List NodeOp) (h : CPUInv s) (hop : ∀ op ∈ ops, opWF op = true) :
    CPUInv (applyOps cpuTopology s ops) := by
  induction ops generalizing s with
  | nil => exact h
  | cons op rest ih =>
    rw [applyOps]
    exact ih _ (cpuInv_applyOp cpuTopology s op h (hop op (List.mem_cons_self op rest)))
      (fun x hx => hop x (List.mem_cons_of_mem op hx))

theorem cpuInv_empty (nodeName : String) : CPUInv (NewNodeAllocation nodeName) := by
  refine ⟨?_, ?_, ?_, ?_, ?_⟩ <;>
    simp [NewNodeAllocation, NodupKeys, keysList, refVal, podMultiplicity, podMultL, alook]

end InvariantLemmas

/-- **C1.** For every sequence of update/release operations applied to a
`NodeAllocation` starting from the empty state produced by
`NewNodeAllocation` (each update carrying a genuine CPU set, i.e. one
without duplicate ids), and for every CPU id `c`: the `RefCount` recorded
for `c` in `allocatedCPUs` equals the number of pod allocations in
`allocatedPods` whose `CPUSet` contains `c`; in particular `c` is absent
from `allocatedCPUs` exactly when no recorded pod allocation contains it. -/
theorem nodeAllocation_refcount_invariant (cpuTopology : CPUTopology)
    (nodeName : String) (ops : List NodeOp)
    (hops : ∀ op ∈ ops, opWF op = true) (c : Nat) :
    refVal (applyOps cpuTopology (NewNodeAllocation nodeName) ops) c =
      (podMultiplicity (applyOps cpuTopology (NewNodeAllocation nodeName) ops) c : Int) ∧
    (alook (applyOps cpuTopology (NewNodeAllocation nodeName) ops).allocatedCPUs c = none ↔
      podMultiplicity (applyOps cpuTopology (NewNodeAllocation nodeName) ops) c = 0) := by
  obtain ⟨_, _, _, hcount, hpos⟩ :=
    cpuInv_applyOps cpuTopology (NewNodeAllocation nodeName) ops (cpuInv_empty nodeName) hops
  refine ⟨hcount c, ?_, ?_⟩
  · intro hnone
    have h2 := hcount c
    unfold refVal at h2
    rw [hnone] at h2
    simpa using h2.symm
  · intro hzero
    rcases hh : alook (applyOps cpuTopology (NewNodeAllocation nodeName)
        ops).allocatedCPUs c with _ | i
    · rfl
    · exfalso
      have h1 := hpos c i hh
      have h2 := hcount c
      unfold refVal at h2
      rw [hh, Option.map_some', Option.getD_some, hzero] at h2
      omega

/-- Concrete witness data for the theorems that carry hypotheses: a small
2-core/4-CPU topology and two pods. -/
def wTopo : CPUTopology :=
  { numCPUs := 4, numCores := 2, numSockets := 1, numNodes := 1
    details :=
      [(0, ⟨0, 0, 0, 0⟩), (1, ⟨0, 0, 0, 0⟩), (2, ⟨1, 0, 0, 0⟩), (3, ⟨1, 0, 0, 0⟩)] }

def wPodA : PodAllocation :=
  { uid := "a", pnamespace := "default", pname := "pod-a", cpuSet := [0, 1]
    cpuExclusivePolicy := "PCPULevel"
    numaNodeResources := [{ node := 0, resources := [("cpu", 2000)] }] }

def wPodB : PodAllocation :=
  { uid := "b", pnamespace := "default", pname := "pod-b", cpuSet := [1, 2]
    cpuExclusivePolicy := ""
    numaNodeResources := [{ node := 0, resources := [("cpu", 2000)] }] }

def wOps : List NodeOp := [NodeOp.upd wPodA, NodeOp.upd wPodB, NodeOp.rel "a"]

/-! ## State equivalence and well-formedness (claims C7, C8)

Go maps are unordered and `resource.Quantity` values compare numerically, so
"the same `NodeAllocation` state" means: the three ledgers agree on every
lookup, resource quantities agreeing key by key. -/

def OptNREquiv : Option NUMANodeResource → Option NUMANodeResource → Prop
  | none, none => True
  | some r1, some r2 =>
    r1.node = r2.node ∧ ∀ k, rlVal r1.resources k = rlVal r2.resources k
  | _, _ => False

theorem optNREquiv_refl (o : Option NUMANodeResource) : OptNREquiv o o := by
  cases o with
  | none => trivial
  | some r => exact ⟨rfl, fun _ => rfl⟩

def NAEquiv (s1 s2 : NodeAllocation) : Prop :=
  (∀ u, alook s1.allocatedPods u = alook s2.allocatedPods u) ∧
  (∀ c, alook s1.allocatedCPUs c = alook s2.allocatedCPUs c) ∧
  (∀ n, OptNREquiv (alook s1.allocatedResources n) (alook s2.allocatedResources n))

/-- Well-formed node state, as documented by the data model: ledger keys are
unique, stored CPU sets are genuine sets, every recorded reference count is
positive (a CPU that would reach zero is deleted), and recorded quantities
are non-negative. -/
def NAWF (s : NodeAllocation) : Prop :=
  NodupKeys s.allocatedPods ∧ NodupKeys s.allocatedCPUs ∧
  (∀ p ∈ s.allocatedPods, p.2.cpuSet.Nodup) ∧
  (∀ q ∈ s.allocatedCPUs, 1 ≤ q.2.refCount) ∧
  (∀ p ∈ s.allocatedResources, ∀ k, 0 ≤ rlVal p.2.resources k)

/-- Well-formed pod allocation payload: a genuine CPU set, one resource entry
per NUMA node, and non-negative requested quantities. -/
def PodWF (a : PodAllocation) : Prop :=
  a.cpuSet.Nodup ∧ (a.numaNodeResources.map NUMANodeResource.node).Nodup ∧
  ∀ nr ∈ a.numaNodeResources, NodupKeys nr.resources ∧ ∀ k, 0 ≤ rlVal nr.resources k

section RoundTripLemmas

theorem release_pods_none (s : NodeAllocation) (u : String)
    (h : NodupKeys s.allocatedPods) :
    alook (s.release u).allocatedPods u = none := by
  rcases hu : alook s.allocatedPods u with _ | a
  · rw [NodeAllocation.release, hu]
    exact hu
  · rw [NodeAllocation.release, hu]
    exact alook_alerase_self _ _ h

/-- One subtraction step keeps every recorded quantity non-negative. -/
theorem subResStep_nonneg (res : List (Nat × NUMANodeResource))
    (nr : NUMANodeResource)
    (h : ∀ n r, alook res n = some r → ∀ k, 0 ≤ rlVal r.resources k) :
    ∀ n r, alook (subResStep res nr) n = some r → ∀ k, 0 ≤ rlVal r.resources k := by
  intro n r hr k
  rcases hh : alook res nr.node with _ | r0
  · rw [subResStep, hh] at hr
    exact h n r hr k
  · rw [subResStep, hh] at hr
    by_cases hn : n = nr.node
    · subst hn
      rw [alook_alset_self] at hr
      injection hr with hr2
      rw [← hr2]
      exact rlSubNonNeg_nonneg _ _ k
    · rw [alook_alset_ne _ _ _ _ hn] at hr
      exact h n r hr k

theorem subResLoop_nonneg (l : List NUMANodeResource)
    (res : List (Nat × NUMANodeResource))
    (h : ∀ n r, alook res n = some r → ∀ k, 0 ≤ rlVal r.resources k) :
    ∀ n r, alook (subResLoop res l) n = some r → ∀ k, 0 ≤ rlVal r.resources k := by
  induction l generalizing res with
  | nil => exact h
  | cons nr rest ih =>
    rw [subResLoop]
    exact ih _ (subResStep_nonneg res nr h)

/-- `update` applied to a state that already records exactly this allocation
(in the shape `update` itself leaves behind) is the identity, extensionally. -/
theorem update_self_id (cpuTopology : CPUTopology) (t : NodeAllocation)
    (a : PodAllocation)
    (hpods : NodupKeys t.allocatedPods)
    (hcpus : NodupKeys t.allocatedCPUs)
    (hset : a.cpuSet.Nodup)
    (hnodes : (a.numaNodeResources.map NUMANodeResource.node).Nodup)
    (hu : alook t.allocatedPods a.uid = some a)
    (hcpu : ∀ c ∈ a.cpuSet, ∃ i, alook t.allocatedCPUs c = some i ∧
      1 ≤ i.refCount ∧ i.exclusivePolicy = a.cpuExclusivePolicy ∧
      (i.refCount = 1 → i = incr1 cpuTopology a.cpuExclusivePolicy c none))
    (hres : ∀ nr ∈ a.numaNodeResources,
      ∃ m, alook t.allocatedResources nr.node = some m ∧
        NodupKeys nr.resources ∧ (∀ k, 0 ≤ rlVal nr.resources k) ∧
        (∀ k, rlVal nr.resources k ≤ rlVal m.resources k)) :
    NAEquiv (t.update a cpuTopology) t := by
  have hrel : t.release a.uid =
      { t with
        allocatedPods := alerase t.allocatedPods a.uid
        allocatedCPUs := decrCPUs t.allocatedCPUs a.cpuSet
        allocatedResources := subResLoop t.allocatedResources a.numaNodeResources } := by
    rw [NodeAllocation.release, hu]
  have hguard : alook (t.release a.uid).allocatedPods a.uid = none :=
    release_pods_none t a.uid hpods
  have hupd : t.update a cpuTopology =
      { t with
        allocatedPods := alset (alerase t.allocatedPods a.uid) a.uid a
        allocatedCPUs :=
          addCPUsLoop cpuTopology a.cpuExclusivePolicy
            (decrCPUs t.allocatedCPUs a.cpuSet) a.cpuSet
        allocatedResources :=
          addResLoop (subResLoop t.allocatedResources a.numaNodeResources) 0
            a.numaNodeResources } := by
    rw [NodeAllocation.update, NodeAllocation.addPodAllocation]
    rw [hrel] at hguard ⊢
    rw [if_neg (by rw [hguard]; simp)]
  refine ⟨?_, ?_, ?_⟩
  · intro u'
    rw [hupd]
    by_cases huu : u' = a.uid
    · subst huu
      rw [alook_alset_self, hu]
    · rw [alook_alset_ne _ _ _ _ huu, alook_alerase_ne _ _ _ huu]
  · intro c
    rw [hupd]
    by_cases hcm : c ∈ a.cpuSet
    · rcases hcpu c hcm with ⟨i, hlook, hge, hpol, hone⟩
      have hdec := decrCPUs_alook t.allocatedCPUs a.cpuSet hcpus hset c
      rw [if_pos hcm, hlook] at hdec
      have hadd := addCPUsLoop_alook cpuTopology a.cpuExclusivePolicy
        (decrCPUs t.allocatedCPUs a.cpuSet) a.cpuSet hset c
      rw [if_pos hcm, hdec] at hadd
      rw [hadd, hlook]
      simp only [decr1]
      by_cases hz : i.refCount - 1 = 0
      · rw [if_pos hz, hone (by omega)]
      · rw [if_neg hz]
        obtain ⟨ib, irc, ipol⟩ := i
        simp only at hz hpol ⊢
        simp [incr1, hpol]
    · have hdec := decrCPUs_alook_of_not_mem t.allocatedCPUs a.cpuSet c hcm
      have hadd := addCPUsLoop_alook_of_not_mem cpuTopology a.cpuExclusivePolicy
        (decrCPUs t.allocatedCPUs a.cpuSet) a.cpuSet c hcm
      rw [hadd, hdec]
  · intro n
    rw [hupd]
    by_cases hex : ∃ nr ∈ a.numaNodeResources, nr.node = n
    · rcases hex with ⟨nr, hmem, rfl⟩
      rcases hres nr hmem with ⟨m, hm, hwkeys, hwpos, hwle⟩
      have hsub := subResLoop_alook_mem t.allocatedResources a.numaNodeResources
        hnodes nr hmem
      rw [hm] at hsub
      simp only [Option.map_some'] at hsub
      rcases addResLoop_alook_mem
          (subResLoop t.allocatedResources a.numaNodeResources) 0
          a.numaNodeResources hnodes nr hmem with ⟨m2, hm2, hnode2, hval2⟩
      rw [hm2, hm]
      refine ⟨?_, ?_⟩
      · rw [hnode2 _ hsub]
      · intro k
        have hv := hval2 k
        rw [hsub] at hv
        simp only [Option.map_some', Option.getD_some] at hv
        rw [hv, rlVal_rlSubNonNeg _ _ _ (hwpos k), rlSum_eq_rlVal _ _ hwkeys,
          max_eq_right (sub_nonneg.mpr (hwle k))]
        ring
    · push_neg at hex
      have h1 := addResLoop_alook_of_not_node
        (subResLoop t.allocatedResources a.numaNodeResources) 0
        a.numaNodeResources n hex
      have h2 := subResLoop_alook_of_not_node t.allocatedResources
        a.numaNodeResources n hex
      rw [h1, h2]
      exact optNREquiv_refl _

theorem rlVal_nonneg_of_entries (l : ResourceList) (h : ∀ kv ∈ l, 0 ≤ kv.2)
    (k : ResourceName) : 0 ≤ rlVal l k := by
  rcases hl : alook l k with _ | v
  · rw [rlVal, hl]
    exact le_refl 0
  · rw [rlVal, hl, Option.getD_some]
    exact h _ (alook_mem hl)

/-- What `update` leaves behind, for a well-formed state and payload: the pod
is recorded under its UID, each of its CPUs carries its policy with a
positive reference count (a count of exactly 1 meaning a fresh
topology-seeded entry), and each of its NUMA entries is covered by the
resource ledger. -/
theorem update_post (cpuTopology : CPUTopology) (s : NodeAllocation)
    (a : PodAllocation) (hwf : NAWF s) (hpod : PodWF a) :
    NodupKeys (s.update a cpuTopology).allocatedPods ∧
    NodupKeys (s.update a cpuTopology).allocatedCPUs ∧
    alook (s.update a cpuTopology).allocatedPods a.uid = some a ∧
    (∀ c ∈ a.cpuSet, ∃ i, alook (s.update a cpuTopology).allocatedCPUs c = some i ∧
      1 ≤ i.refCount ∧ i.exclusivePolicy = a.cpuExclusivePolicy ∧
      (i.refCount = 1 → i = incr1 cpuTopology a.cpuExclusivePolicy c none)) ∧
    (∀ nr ∈ a.numaNodeResources,
      ∃ m, alook (s.update a cpuTopology).allocatedResources nr.node = some m ∧
        NodupKeys nr.resources ∧ (∀ k, 0 ≤ rlVal nr.resources k) ∧
        (∀ k, rlVal nr.resources k ≤ rlVal m.resources k)) := by
  obtain ⟨hp, hc, hsets, hcposL, hresL⟩ := hwf
  obtain ⟨hset, hnodes, hperentry⟩ := hpod
  -- facts about the released state
  have hL0pods : NodupKeys (s.release a.uid).allocatedPods := by
    rcases hb : alook s.allocatedPods a.uid with _ | b
    · rw [NodeAllocation.release, hb]
      exact hp
    · rw [NodeAllocation.release, hb]
      exact nodupKeys_alerase _ _ hp
  have hL0cpus : NodupKeys (s.release a.uid).allocatedCPUs := by
    rcases hb : alook s.allocatedPods a.uid with _ | b
    · rw [NodeAllocation.release, hb]
      exact hc
    · rw [NodeAllocation.release, hb]
      exact nodupKeys_decrCPUs _ _ hc
  have hL0guard : alook (s.release a.uid).allocatedPods a.uid = none :=
    release_pods_none s a.uid hp
  have hL0pos : ∀ c i, alook (s.release a.uid).allocatedCPUs c = some i →
      1 ≤ i.refCount := by
    intro c i hi
    rcases hb : alook s.allocatedPods a.uid with _ | b
    · rw [NodeAllocation.release, hb] at hi
      exact hcposL _ (alook_mem hi)
    · rw [NodeAllocation.release, hb] at hi
      have hbset : b.cpuSet.Nodup := hsets (a.uid, b) (alook_mem hb)
      have hdec := decrCPUs_alook s.allocatedCPUs b.cpuSet hc hbset c
      by_cases hcb : c ∈ b.cpuSet
      · rw [hdec, if_pos hcb] at hi
        rcases hj : alook s.allocatedCPUs c with _ | j
        · rw [hj] at hi
          simp [decr1] at hi
        · rw [hj, decr1] at hi
          have hj1 : 1 ≤ j.refCount := hcposL _ (alook_mem hj)
          by_cases hz : j.refCount - 1 = 0
          · rw [if_pos hz] at hi
            exact absurd hi (by simp)
          · rw [if_neg hz] at hi
            injection hi with hi2
            have h2 : i.refCount = j.refCount - 1 := by rw [← hi2]
            omega
      · rw [hdec, if_neg hcb] at hi
        exact hcposL _ (alook_mem hi)
  have hL0res : ∀ n r, alook (s.release a.uid).allocatedResources n = some r →
      ∀ k, 0 ≤ rlVal r.resources k := by
    intro n r hr
    rcases hb : alook s.allocatedPods a.uid with _ | b
    · rw [NodeAllocation.release, hb] at hr
      exact hresL _ (alook_mem hr)
    · rw [NodeAllocation.release, hb] at hr
      exact subResLoop_nonneg b.numaNodeResources s.allocatedResources
        (fun n' r' hr' => hresL _ (alook_mem hr')) n r hr
  have hupd : s.update a cpuTopology =
      { s.release a.uid with
        allocatedPods := alset (s.release a.uid).allocatedPods a.uid a
        allocatedCPUs :=
          addCPUsLoop cpuTopology a.cpuExclusivePolicy
            (s.release a.uid).allocatedCPUs a.cpuSet
        allocatedResources :=
          addResLoop (s.release a.uid).allocatedResources 0 a.numaNodeResources } := by
    rw [NodeAllocation.update, NodeAllocation.addPodAllocation,
      if_neg (by rw [hL0guard]; simp)]
  refine ⟨?_, ?_, ?_, ?_, ?_⟩
  · rw [hupd]
    exact nodupKeys_alset _ _ _ hL0pods
  · rw [hupd]
    exact nodupKeys_addCPUsLoop _ _ _ _ hL0cpus
  · rw [hupd]
    exact alook_alset_self _ _ _
  · intro c hcm
    rw [hupd]
    have hadd := addCPUsLoop_alook cpuTopology a.cpuExclusivePolicy
      (s.release a.uid).allocatedCPUs a.cpuSet hset c
    rw [if_pos hcm] at hadd
    refine ⟨incr1 cpuTopology a.cpuExclusivePolicy c
      (alook (s.release a.uid).allocatedCPUs c), hadd, ?_, ?_, ?_⟩
    · rcases ho : alook (s.release a.uid).allocatedCPUs c with _ | j
      · have h2 : (incr1 cpuTopology a.cpuExclusivePolicy c none).refCount = 1 := rfl
        omega
      · have h2 : (incr1 cpuTopology a.cpuExclusivePolicy c (some j)).refCount =
            j.refCount + 1 := rfl
        have h3 := hL0pos c j ho
        omega
    · rcases ho : alook (s.release a.uid).allocatedCPUs c with _ | j
      · rfl
      · rfl
    · rcases ho : alook (s.release a.uid).allocatedCPUs c with _ | j
      · intro _
        rfl
      · intro h1
        have hj1 := hL0pos c j ho
        have h2 : j.refCount + 1 = 1 := h1
        exact absurd h2 (by omega)
  · intro nr hmem
    rw [hupd]
    rcases addResLoop_alook_mem (s.release a.uid).allocatedResources 0
      a.numaNodeResources hnodes nr hmem with ⟨m2, hm2, _, hval2⟩
    refine ⟨m2, hm2, (hperentry nr hmem).1, (hperentry nr hmem).2, ?_⟩
    intro k
    rw [hval2 k, rlSum_eq_rlVal _ _ (hperentry nr hmem).1]
    rcases ho : alook (s.release a.uid).allocatedResources nr.node with _ | r
    · simp
    · have h9 := hL0res nr.node r ho k
      simp only [Option.map_some', Option.getD_some]
      linarith

/-- **C7.** For every well-formed `NodeAllocation` state and pod allocation
`A` (`u = A.UID`), performing `update(u, A)` twice in a row yields exactly
the same final state as performing it once: the two resulting states agree
on every lookup of `allocatedPods`, `allocatedCPUs` and
`allocatedResources` (Go maps are unordered, so this is Go state
equality). -/
theorem nodeAllocation_update_idempotent (cpuTopology : CPUTopology)
    (s : NodeAllocation) (a : PodAllocation) (hwf : NAWF s) (hpod : PodWF a) :
    NAEquiv ((s.update a cpuTopology).update a cpuTopology)
      (s.update a cpuTopology) := by
  obtain ⟨h1, h2, h3, h4, h5⟩ := update_post cpuTopology s a hwf hpod
  exact update_self_id cpuTopology _ a h1 h2 hpod.1 hpod.2.1 h3 h4 h5

theorem nawf_empty (nodeName : String) : NAWF (NewNodeAllocation nodeName) := by
  refine ⟨?_, ?_, ?_, ?_, ?_⟩ <;> simp [NewNodeAllocation, NodupKeys, keysList]

theorem podWF_wPodA : PodWF wPodA := by
  refine ⟨by decide, by decide, ?_⟩
  intro nr hnr
  have : nr = { node := 0, resources := [("cpu", 2000)] } := by
    simpa [wPodA] using hnr
  subst this
  exact ⟨by decide, fun k => rlVal_nonneg_of_entries _ (by decide) k⟩

theorem nodeAllocation_update_idempotent_witness :
    NAWF (NewNodeAllocation "n") ∧ PodWF wPodA ∧
      NAEquiv (((NewNodeAllocation "n").update wPodA wTopo).update wPodA wTopo)
        ((NewNodeAllocation "n").update wPodA wTopo) :=
  ⟨nawf_empty "n", podWF_wPodA,
    nodeAllocation_update_idempotent wTopo (NewNodeAllocation "n") wPodA
      (nawf_empty "n") podWF_wPodA⟩

/-- Per-node, per-resource allocated quantity (0 when the node has no
entry), the quantity any quota arithmetic observes. -/
def resQty (s : NodeAllocation) (n : Nat) (k : ResourceName) : Quantity :=
  ((alook s.allocatedResources n).map (fun r => rlVal r.resources k)).getD 0

/-- Concrete data refuting claim C8 as stated: the UID is already allocated
(with CPU 0), so `update` destroys that prior allocation and
`release` cannot resurrect it. -/
def c8PodB : PodAllocation :=
  { uid := "u", pnamespace := "default", pname := "pod-b", cpuSet := [0]
    cpuExclusivePolicy := "", numaNodeResources := [] }

def c8PodA : PodAllocation :=
  { uid := "u", pnamespace := "default", pname := "pod-a", cpuSet := [1]
    cpuExclusivePolicy := "", numaNodeResources := [] }

def c8State : NodeAllocation :=
  { nodeName := "n", allocatedPods := [("u", c8PodB)]
    allocatedCPUs := [(0, ⟨⟨0, 0, 0, 0⟩, 1, ""⟩)], allocatedResources := [] }

/-- **C8, counterexample.**  `c8State` records pod `u` holding CPU 0; after
`update(u, A)` (with `A.CPUSet = {1}`) followed by `release(u)` the CPU
ledger is empty, so the state does not return to `c8State`: the claim fails
when the UID is already present. -/
theorem nodeAllocation_update_release_roundtrip_cex :
    ¬ NAEquiv ((c8State.update c8PodA wTopo).release c8PodA.uid) c8State :=
  fun h => absurd (h.2.1 0) (by decide)

/-- **C8, amended.**  For every well-formed `NodeAllocation` state `S` and
pod allocation `A` whose UID is *not yet recorded* in `allocatedPods`,
`update(u, A)` followed by `release(u)` returns the ledger to `S` up to the
observable content of each map: `allocatedPods` agrees on every lookup,
every CPU's reference count and ledger membership is restored, and every
per-NUMA allocated quantity is restored (an absent entry reading as zero).
(The exclusive-policy tag of a CPU still referenced by another pod, and
explicit zero-quantity resource entries, are not restored — which is why
the claim needs amending even for a fresh UID.) -/
theorem nodeAllocation_update_release_roundtrip (cpuTopology : CPUTopology)
    (s : NodeAllocation) (a : PodAllocation) (hwf : NAWF s) (hpod : PodWF a)
    (hu : alook s.allocatedPods a.uid = none) :
    (∀ u, alook ((s.update a cpuTopology).release a.uid).allocatedPods u =
        alook s.allocatedPods u) ∧
    (∀ c, refVal ((s.update a cpuTopology).release a.uid) c = refVal s c ∧
      (alook ((s.update a cpuTopology).release a.uid).allocatedCPUs c).isSome =
        (alook s.allocatedCPUs c).isSome) ∧
    (∀ n k, resQty ((s.update a cpuTopology).release a.uid) n k = resQty s n k) := by
  obtain ⟨hp, hc, hsets, hcposL, hresL⟩ := hwf
  obtain ⟨hset, hnodes, hperentry⟩ := hpod
  have hupd : s.update a cpuTopology =
      { s with
        allocatedPods := s.allocatedPods ++ [(a.uid, a)]
        allocatedCPUs :=
          addCPUsLoop cpuTopology a.cpuExclusivePolicy s.allocatedCPUs a.cpuSet
        allocatedResources := addResLoop s.allocatedResources 0 a.numaNodeResources } := by
    rw [NodeAllocation.update, NodeAllocation.release, hu,
      NodeAllocation.addPodAllocation, if_neg (by rw [hu]; simp),
      alset_of_absent _ _ _ hu]
  have hfound : alook (s.update a cpuTopology).allocatedPods a.uid = some a := by
    rw [hupd]
    exact alook_append_single _ _ _ hu
  have hrel : (s.update a cpuTopology).release a.uid =
      { s with
        allocatedPods := s.allocatedPods
        allocatedCPUs :=
          decrCPUs (addCPUsLoop cpuTopology a.cpuExclusivePolicy
            s.allocatedCPUs a.cpuSet) a.cpuSet
        allocatedResources :=
          subResLoop (addResLoop s.allocatedResources 0 a.numaNodeResources)
            a.numaNodeResources } := by
    rw [NodeAllocation.release, hfound, hupd]
    simp only
    rw [alerase_append_single _ _ _ hu]
  refine ⟨?_, ?_, ?_⟩
  · intro u
    rw [hrel]
  · intro c
    rw [hrel]
    simp only
    by_cases hcm : c ∈ a.cpuSet
    · have hadd := addCPUsLoop_alook cpuTopology a.cpuExclusivePolicy
        s.allocatedCPUs a.cpuSet hset c
      rw [if_pos hcm] at hadd
      have hdec := decrCPUs_alook
        (addCPUsLoop cpuTopology a.cpuExclusivePolicy s.allocatedCPUs a.cpuSet)
        a.cpuSet (nodupKeys_addCPUsLoop _ _ _ _ hc) hset c
      rw [if_pos hcm, hadd] at hdec
      rcases hj : alook s.allocatedCPUs c with _ | j
      · rw [hj] at hdec
        have hz : (incr1 cpuTopology a.cpuExclusivePolicy c none).refCount - 1 = 0 := rfl
        rw [decr1, if_pos hz] at hdec
        constructor
        · unfold refVal
          rw [hdec, hj]
        · rw [hdec]
      · rw [hj] at hdec
        have hj1 : 1 ≤ j.refCount := hcposL _ (alook_mem hj)
        have hrc : (incr1 cpuTopology a.cpuExclusivePolicy c (some j)).refCount =
            j.refCount + 1 := rfl
        have hz : ¬ (incr1 cpuTopology a.cpuExclusivePolicy c (some j)).refCount - 1 = 0 := by
          rw [hrc]
          omega
        rw [decr1, if_neg hz] at hdec
        constructor
        · unfold refVal
          rw [hdec, hj]
          simp only [Option.map_some', Option.getD_some, hrc]
          omega
        · simp [hdec, hj]
    · have hadd := addCPUsLoop_alook_of_not_mem cpuTopology a.cpuExclusivePolicy
        s.allocatedCPUs a.cpuSet c hcm
      have hdec := decrCPUs_alook_of_not_mem
        (addCPUsLoop cpuTopology a.cpuExclusivePolicy s.allocatedCPUs a.cpuSet)
        a.cpuSet c hcm
      rw [hadd] at hdec
      constructor
      · unfold refVal
        rw [hdec]
      · rw [hdec]
  · intro n k
    rw [hrel]
    unfold resQty
    simp only
    by_cases hex : ∃ nr ∈ a.numaNodeResources, nr.node = n
    · rcases hex with ⟨nr, hmem, rfl⟩
      rcases addResLoop_alook_mem s.allocatedResources 0 a.numaNodeResources
        hnodes nr hmem with ⟨m2, hm2, _, hval2⟩
      have hsub := subResLoop_alook_mem
        (addResLoop s.allocatedResources 0 a.numaNodeResources)
        a.numaNodeResources hnodes nr hmem
      rw [hm2] at hsub
      simp only [Option.map_some'] at hsub
      rw [hsub]
      simp only [Option.map_some', Option.getD_some]
      have hwpos := (hperentry nr hmem).2
      have hv2 := hval2 k
      rw [rlSum_eq_rlVal _ _ (hperentry nr hmem).1] at hv2
      rw [rlVal_rlSubNonNeg _ _ _ (hwpos k), hv2]
      have hbase : 0 ≤ ((alook s.allocatedResources nr.node).map
          (fun r => rlVal r.resources k)).getD 0 := by
        rcases hb : alook s.allocatedResources nr.node with _ | r
        · simp
        · simp only [Option.map_some', Option.getD_some]
          exact hresL _ (alook_mem hb) k
      rw [show ((alook s.allocatedResources nr.node).map
            (fun r => rlVal r.resources k)).getD 0 + rlVal nr.resources k -
            rlVal nr.resources k =
          ((alook s.allocatedResources nr.node).map
            (fun r => rlVal r.resources k)).getD 0 from by ring,
        max_eq_right hbase]
    · push_neg at hex
      rw [subResLoop_alook_of_not_node _ _ _ hex,
        addResLoop_alook_of_not_node _ _ _ _ hex]

theorem nodeAllocation_update_release_roundtrip_witness :
    (NAWF (NewNodeAllocation "n") ∧ PodWF wPodA ∧
      alook (NewNodeAllocation "n").allocatedPods wPodA.uid = none) ∧
    ((∀ u, alook (((NewNodeAllocation "n").update wPodA wTopo).release
          wPodA.uid).allocatedPods u = alook (NewNodeAllocation "n").allocatedPods u) ∧
      (∀ c, refVal (((NewNodeAllocation "n").update wPodA wTopo).release wPodA.uid) c =
          refVal (NewNodeAllocation "n") c ∧
        (alook (((NewNodeAllocation "n").update wPodA wTopo).release
            wPodA.uid).allocatedCPUs c).isSome =
          (alook (NewNodeAllocation "n").allocatedCPUs c).isSome) ∧
      (∀ n k, resQty (((NewNodeAllocation "n").update wPodA wTopo).release wPodA.uid) n k =
        resQty (NewNodeAllocation "n") n k)) :=
  ⟨⟨nawf_empty "n", podWF_wPodA, rfl⟩,
    nodeAllocation_update_release_roundtrip wTopo (NewNodeAllocation "n") wPodA
      (nawf_empty "n") podWF_wPodA rfl⟩

end RoundTripLemmas

/-! ## getAvailableCPUs (claim C6) -/

/-- Pointwise description of what the `preferredCPUs` pass of
`getAvailableCPUs` leaves in the cloned ledger: a preferred CPU's entry has
its reference count decremented once, disappearing when it reaches zero;
every other entry is untouched. -/
def adjInfo (cpus : CPUDetails) (preferredCPUs : List Nat) (c : Nat) : Option CPUInfo :=
  match alook cpus c with
  | none => none
  | some i =>
    if c ∈ preferredCPUs then
      if i.refCount - 1 = 0 then none else some { i with refCount := i.refCount - 1 }
    else some i

theorem adjInfo_eq (cpus : CPUDetails) (preferredCPUs : List Nat) (c : Nat) :
    adjInfo cpus preferredCPUs c =
      if c ∈ preferredCPUs then decr1 (alook cpus c) else alook cpus c := by
  rcases h : alook cpus c with _ | i
  · simp [adjInfo, decr1, h]
  · simp only [adjInfo, decr1, h]

/-- **C6.** For every topology, `maxRefCount`, reserved and preferred CPU
sets (and any ledger with unique keys): `getAvailableCPUs` first clones
`allocatedCPUs` and decrements the reference count of each preferred CPU,
removing entries that reach zero (the returned view equals `adjInfo`
pointwise); and a CPU is available exactly when it belongs to the
topology, its adjusted ledger entry (if any) has a reference count below
`maxRefCount`, and it is not reserved. -/
theorem getAvailableCPUs_spec (n : NodeAllocation) (cpuTopology : CPUTopology)
    (maxRefCount : Int) (reservedCPUs preferredCPUs : List Nat)
    (hn : NodupKeys n.allocatedCPUs) (hpref : preferredCPUs.Nodup) :
    (∀ c, alook (n.getAvailableCPUs cpuTopology maxRefCount reservedCPUs
        preferredCPUs).2 c = adjInfo n.allocatedCPUs preferredCPUs c) ∧
    (∀ c, c ∈ (n.getAvailableCPUs cpuTopology maxRefCount reservedCPUs
        preferredCPUs).1 ↔
      (c ∈ keysList cpuTopology.details ∧
        (∀ i, adjInfo n.allocatedCPUs preferredCPUs c = some i →
          i.refCount < maxRefCount) ∧
        c ∉ reservedCPUs)) := by
  have hview : ∀ c, alook (decrCPUs n.allocatedCPUs preferredCPUs) c =
      adjInfo n.allocatedCPUs preferredCPUs c := by
    intro c
    rw [adjInfo_eq]
    exact decrCPUs_alook n.allocatedCPUs preferredCPUs hn hpref c
  refine ⟨hview, ?_⟩
  intro c
  rw [NodeAllocation.getAvailableCPUs]
  simp only [List.mem_filter, decide_eq_true_eq]
  constructor
  · rintro ⟨⟨htp, hnal⟩, hnres⟩
    refine ⟨htp, ?_, hnres⟩
    intro i hi
    by_contra hge
    push_neg at hge
    apply hnal
    refine ⟨?_, ?_⟩
    · rw [← alook_isSome_iff, hview c, hi]
      rfl
    · rw [hview c, hi]
      simpa using hge
  · rintro ⟨htp, hlt, hnres⟩
    refine ⟨⟨htp, ?_⟩, hnres⟩
    rintro ⟨hkeys, hle⟩
    rw [hview c] at hle
    rw [← alook_isSome_iff, hview c] at hkeys
    rcases hadj : adjInfo n.allocatedCPUs preferredCPUs c with _ | i
    · rw [hadj] at hkeys
      simp at hkeys
    · rw [hadj] at hle
      simp only [Option.map_some', Option.getD_some] at hle
      exact absurd hle (not_le.mpr (hlt i hadj))

/-! ## Hint generation (claim C3) -/

structure NUMATopologyHint where
  NUMANodeAffinity : List Nat
  Preferred : Bool
  deriving DecidableEq

abbrev HintMap : Type := List (String × List NUMATopologyHint)

def hintsFor (hm : HintMap) (r : String) : List NUMATopologyHint :=
  (alook hm r).getD []

/-- The summed availability of the cells of a mask (`quotav1.Add` over the
mask's bits, starting from an empty list). -/
def sumAvailMask (totalAvailable : Nat → ResourceList) (m : List Nat) : ResourceList :=
  m.foldl (fun acc nodeID => rlAdd acc (totalAvailable nodeID)) []

/-- Modelled from the spec (the `bitmask` utility package is not in the
source excerpt): `bitmask.IterateBitMasks` enumerates every non-empty
subset of the NUMA cell list in ascending cardinality; a mask is its sorted
bit list. -/
def masksEnum (numaNodes : List Nat) : List (List Nat) :=
  ((List.range numaNodes.length).map (fun k => List.sublistsLen (k + 1) numaNodes)).flatten

/-- `hints[r] = append(hints[r], h)` with implicit empty initialisation. -/
def hintsAdd (hm : HintMap) (r : String) (h : NUMATopologyHint) : HintMap :=
  alset hm r ((alook hm r).getD [] ++ [h])

/-- One `IterateBitMasks` callback body of `generateResourceHints`: check
satisfaction of the request against the summed availability, lower the
minimum affinity size, and emit a (not yet preferred) hint for every
requested resource present in the summed availability. -/
def processOneMask (podRequests : ResourceList) (totalAvailable : Nat → ResourceList)
    (acc : Nat × HintMap) (m : List Nat) : Nat × HintMap :=
  let available := sumAvailMask totalAvailable m
  if rlLeq podRequests available then
    let minA := if m.length < acc.1 then m.length else acc.1
    let hm := podRequests.foldl
      (fun hm kv =>
        if (alook available kv.1).isSome then hintsAdd hm kv.1 ⟨m, false⟩ else hm)
      acc.2
    (minA, hm)
  else acc

def generateResourceHints (numaNodes : List Nat) (podRequests : ResourceList)
    (totalAvailable : Nat → ResourceList) : HintMap :=
  let st := (masksEnum numaNodes).foldl (processOneMask podRequests totalAvailable)
    (numaNodes.length, [])
  podRequests.foldl
    (fun hm kv =>
      alset hm kv.1
        (((alook hm kv.1).getD []).map
          (fun h => { h with Preferred := h.NUMANodeAffinity.length == st.1 })))
    st.2

/-- Whether mask `m` makes `generateResourceHints` emit a hint for `r`:
the summed availability satisfies the request and `r` is present in both
the request and the summed availability. -/
def emitsTo (podRequests : ResourceList) (totalAvailable : Nat → ResourceList)
    (r : String) (m : List Nat) : Bool :=
  rlLeq podRequests (sumAvailMask totalAvailable m) &&
    (alook podRequests r).isSome && (alook (sumAvailMask totalAvailable m) r).isSome

/-- The running minimum affinity size over the satisfying masks. -/
def minFold (satisfies : List Nat → Bool) : List (List Nat) → Nat → Nat
  | [], acc => acc
  | m :: ms, acc => minFold satisfies ms (if satisfies m then min acc m.length else acc)

section HintLemmas

theorem mem_masksEnum (numaNodes : List Nat) (m : List Nat) :
    m ∈ masksEnum numaNodes ↔ m ≠ [] ∧ m.Sublist numaNodes := by
  rw [masksEnum]
  simp only [List.mem_flatten, List.mem_map, List.mem_range]
  constructor
  · rintro ⟨l, ⟨k, hk, rfl⟩, hm⟩
    rcases List.mem_sublistsLen.mp hm with ⟨hsub, hlen⟩
    refine ⟨?_, hsub⟩
    intro hnil
    rw [hnil] at hlen
    simp at hlen
  · rintro ⟨hne, hsub⟩
    have hlen1 : 1 ≤ m.length := by
      rcases m with _ | ⟨x, xs⟩
      · exact absurd rfl hne
      · simp
    have hlen2 : m.length ≤ numaNodes.length := hsub.length_le
    refine ⟨List.sublistsLen m.length numaNodes, ⟨m.length - 1, by omega, by
      congr 1
      omega⟩, ?_⟩
    exact List.mem_sublistsLen.mpr ⟨hsub, rfl⟩

theorem hintsFor_hintsAdd_self (hm : HintMap) (r : String) (h : NUMATopologyHint) :
    hintsFor (hintsAdd hm r h) r = hintsFor hm r ++ [h] := by
  rw [hintsFor, hintsAdd, alook_alset_self]
  rfl

theorem hintsFor_hintsAdd_ne (hm : HintMap) (r r' : String) (h : NUMATopologyHint)
    (hne : r' ≠ r) : hintsFor (hintsAdd hm r h) r' = hintsFor hm r' := by
  rw [hintsFor, hintsAdd, alook_alset_ne _ _ _ _ hne]
  rfl

theorem emitFold_hintsFor_not_mem (requests : ResourceList)
    (available : ResourceList) (hint : NUMATopologyHint) (hm : HintMap)
    (r : String) (hr : r ∉ keysList requests) :
    hintsFor (requests.foldl
      (fun hm kv =>
        if (alook available kv.1).isSome then hintsAdd hm kv.1 hint else hm) hm) r =
      hintsFor hm r := by
  induction requests generalizing hm with
  | nil => rfl
  | cons kv rest ih =>
    simp only [keysList, List.map_cons, List.mem_cons, not_or] at hr
    rw [List.foldl_cons, ih _ hr.2]
    by_cases hav : (alook available kv.1).isSome
    · rw [if_pos hav]
      exact hintsFor_hintsAdd_ne hm kv.1 r hint hr.1
    · rw [if_neg hav]

theorem emitFold_hintsFor (requests : ResourceList) (available : ResourceList)
    (hint : NUMATopologyHint) (hm : HintMap) (hreq : NodupKeys requests)
    (r : String) :
    hintsFor (requests.foldl
      (fun hm kv =>
        if (alook available kv.1).isSome then hintsAdd hm kv.1 hint else hm) hm) r =
      hintsFor hm r ++
        (if ((alook requests r).isSome && (alook available r).isSome) then [hint]
         else []) := by
  induction requests generalizing hm with
  | nil => simp [alook]
  | cons kv rest ih =>
    simp only [NodupKeys, keysList, List.map_cons, List.nodup_cons] at hreq
    rw [List.foldl_cons]
    by_cases hkr : r = kv.1
    · subst hkr
      have hnm : kv.1 ∉ keysList rest := hreq.1
      by_cases hav : (alook available kv.1).isSome
      · rw [if_pos hav, emitFold_hintsFor_not_mem rest available hint _ kv.1 hnm,
          hintsFor_hintsAdd_self]
        rw [alook, if_pos rfl]
        simp [hav]
      · rw [if_neg hav, emitFold_hintsFor_not_mem rest available hint _ kv.1 hnm]
        rw [alook, if_pos rfl]
        simp only [Option.isSome_some, Bool.true_and]
        rw [if_neg hav]
        simp
    · have hstep :
          hintsFor (if (alook available kv.1).isSome then hintsAdd hm kv.1 hint
            else hm) r = hintsFor hm r := by
        by_cases hav : (alook available kv.1).isSome
        · rw [if_pos hav]
          exact hintsFor_hintsAdd_ne hm kv.1 r hint hkr
        · rw [if_neg hav]
      rw [ih _ hreq.2, hstep, alook, if_neg hkr]

theorem postFold_hintsFor_not_mem (requests : ResourceList) (minA : Nat)
    (hm : HintMap) (r : String) (hr : r ∉ keysList requests) :
    hintsFor (requests.foldl
      (fun hm kv =>
        alset hm kv.1
          (((alook hm kv.1).getD []).map
            (fun h => { h with Preferred := h.NUMANodeAffinity.length == minA }))) hm)
      r = hintsFor hm r := by
  induction requests generalizing hm with
  | nil => rfl
  | cons kv rest ih =>
    simp only [keysList, List.map_cons, List.mem_cons, not_or] at hr
    rw [List.foldl_cons, ih _ hr.2, hintsFor, alook_alset_ne _ _ _ _ hr.1]
    rfl

theorem postFold_hintsFor (requests : ResourceList) (minA : Nat) (hm : HintMap)
    (hreq : NodupKeys requests) (r : String) :
    hintsFor (requests.foldl
      (fun hm kv =>
        alset hm kv.1
          (((alook hm kv.1).getD []).map
            (fun h => { h with Preferred := h.NUMANodeAffinity.length == minA }))) hm)
      r =
      if (alook requests r).isSome then
        (hintsFor hm r).map
          (fun h => { h with Preferred := h.NUMANodeAffinity.length == minA })
      else hintsFor hm r := by
  induction requests generalizing hm with
  | nil => simp [alook]
  | cons kv rest ih =>
    simp only [NodupKeys, keysList, List.map_cons, List.nodup_cons] at hreq
    rw [List.foldl_cons]
    by_cases hkr : r = kv.1
    · subst hkr
      have hnm : kv.1 ∉ keysList rest := hreq.1
      rw [postFold_hintsFor_not_mem rest minA _ kv.1 hnm, hintsFor, alook_alset_self]
      rw [alook, if_pos rfl]
      simp [hintsFor]
    · rw [ih _ hreq.2, alook, if_neg hkr, hintsFor, alook_alset_ne _ _ _ _ hkr]
      rfl

theorem processFold_spec (requests : ResourceList)
    (totalAvailable : Nat → ResourceList) (hreq : NodupKeys requests)
    (ms : List (List Nat)) (acc : Nat × HintMap) :
    (∀ r, hintsFor ((ms.foldl (processOneMask requests totalAvailable) acc)).2 r =
      hintsFor acc.2 r ++
        (ms.filter (emitsTo requests totalAvailable r)).map
          (fun m => { NUMANodeAffinity := m, Preferred := false })) ∧
    ((ms.foldl (processOneMask requests totalAvailable) acc)).1 =
      minFold (fun m => rlLeq requests (sumAvailMask totalAvailable m)) ms acc.1 := by
  induction ms generalizing acc with
  | nil => exact ⟨fun r => by simp, rfl⟩
  | cons m ms ih =>
    rw [List.foldl_cons]
    rcases ih (processOneMask requests totalAvailable acc m) with ⟨ih1, ih2⟩
    by_cases hsat : rlLeq requests (sumAvailMask totalAvailable m) = true
    · have hacc : processOneMask requests totalAvailable acc m =
          (min acc.1 m.length,
            requests.foldl
              (fun hm kv =>
                if (alook (sumAvailMask totalAvailable m) kv.1).isSome then
                  hintsAdd hm kv.1 { NUMANodeAffinity := m, Preferred := false }
                else hm)
              acc.2) := by
        simp only [processOneMask]
        rw [if_pos hsat]
        congr 1
        split <;> omega
      constructor
      · intro r
        rw [ih1 r, hacc]
        simp only
        rw [emitFold_hintsFor requests (sumAvailMask totalAvailable m) _ acc.2 hreq r,
          List.filter_cons]
        have hemiff : emitsTo requests totalAvailable r m =
            ((alook requests r).isSome &&
              (alook (sumAvailMask totalAvailable m) r).isSome) := by
          rw [emitsTo, hsat]
          simp
        rw [hemiff]
        by_cases hc : ((alook requests r).isSome &&
            (alook (sumAvailMask totalAvailable m) r).isSome) = true
        · rw [if_pos hc, if_pos hc, List.map_cons]
          simp
        · rw [if_neg hc, if_neg hc]
          simp
      · rw [ih2, hacc, minFold, if_pos hsat]
    · have hacc : processOneMask requests totalAvailable acc m = acc := by
        simp only [processOneMask]
        rw [if_neg hsat]
      constructor
      · intro r
        rw [ih1 r, hacc, List.filter_cons]
        have hem : emitsTo requests totalAvailable r m = false := by
          rw [emitsTo, Bool.eq_false_iff]
          intro hcon
          simp only [Bool.and_eq_true] at hcon
          exact hsat hcon.1.1
        rw [if_neg (by simp [hem])]
      · rw [ih2, hacc, minFold, if_neg hsat]

theorem minFold_le_acc (satisfies : List Nat → Bool) (ms : List (List Nat))
    (acc : Nat) : minFold satisfies ms acc ≤ acc := by
  induction ms generalizing acc with
  | nil => exact le_refl acc
  | cons m ms ih =>
    rw [minFold]
    by_cases hs : satisfies m = true
    · rw [if_pos hs]
      exact le_trans (ih (min acc m.length)) (min_le_left _ _)
    · rw [if_neg hs]
      exact ih acc

theorem minFold_le_sat (satisfies : List Nat → Bool) (ms : List (List Nat))
    (acc : Nat) (m : List Nat) (hmem : m ∈ ms) (hsat : satisfies m = true) :
    minFold satisfies ms acc ≤ m.length := by
  induction ms generalizing acc with
  | nil => simp at hmem
  | cons m0 ms ih =>
    rw [minFold]
    rcases List.mem_cons.mp hmem with h1 | h2
    · subst h1
      rw [if_pos hsat]
      exact le_trans (minFold_le_acc _ _ _) (min_le_right _ _)
    · by_cases hs : satisfies m0 = true
      · rw [if_pos hs]
        exact ih _ h2
      · rw [if_neg hs]
        exact ih _ h2

theorem minFold_cases (satisfies : List Nat → Bool) (ms : List (List Nat))
    (acc : Nat) :
    minFold satisfies ms acc = acc ∨
      ∃ m ∈ ms, satisfies m = true ∧ minFold satisfies ms acc = m.length := by
  induction ms generalizing acc with
  | nil => exact Or.inl rfl
  | cons m0 ms ih =>
    rw [minFold]
    by_cases hs : satisfies m0 = true
    · rw [if_pos hs]
      rcases ih (min acc m0.length) with h1 | ⟨m, hmem, hsat, heq⟩
      · rcases le_total acc m0.length with hle | hle
        · exact Or.inl (h1.trans (min_eq_left hle))
        · exact Or.inr ⟨m0, List.mem_cons_self m0 ms, hs, h1.trans (min_eq_right hle)⟩
      · exact Or.inr ⟨m, List.mem_cons_of_mem m0 hmem, hsat, heq⟩
    · rw [if_neg hs]
      rcases ih acc with h1 | ⟨m, hmem, hsat, heq⟩
      · exact Or.inl h1
      · exact Or.inr ⟨m, List.mem_cons_of_mem m0 hmem, hsat, heq⟩

/-- Closed form of `generateResourceHints`: for each resource, one hint per
emitting mask in enumeration order, `Preferred` exactly when the mask size
equals the final minimum satisfying size. -/
theorem generateResourceHints_eq (numaNodes : List Nat)
    (podRequests : ResourceList) (totalAvailable : Nat → ResourceList)
    (hreq : NodupKeys podRequests) (r : String) :
    hintsFor (generateResourceHints numaNodes podRequests totalAvailable) r =
      ((masksEnum numaNodes).filter (emitsTo podRequests totalAvailable r)).map
        (fun m =>
          { NUMANodeAffinity := m
            Preferred :=
              m.length ==
                minFold (fun m => rlLeq podRequests (sumAvailMask totalAvailable m))
                  (masksEnum numaNodes) numaNodes.length }) := by
  rcases processFold_spec podRequests totalAvailable hreq (masksEnum numaNodes)
    (numaNodes.length, []) with ⟨h1, h2⟩
  simp only [generateResourceHints]
  rw [postFold_hintsFor podRequests _ _ hreq r]
  by_cases hrs : (alook podRequests r).isSome
  · rw [if_pos hrs, h1 r, h2]
    have hempty : hintsFor ([] : HintMap) r = [] := rfl
    rw [hempty, List.nil_append, List.map_map]
    rfl
  · rw [if_neg hrs, h1 r]
    have hfil : (masksEnum numaNodes).filter (emitsTo podRequests totalAvailable r) = [] := by
      apply List.filter_eq_nil_iff.mpr
      intro m _
      rw [emitsTo]
      simp only [Bool.and_eq_true, not_and]
      intro h3
      exact absurd h3.2 (by simpa using hrs)
    rw [hfil]
    simp [hintsFor, alook]

/-- Availability map for the C3 counterexample: one cell holding only the
resource "foo". -/
def availCex : Nat → ResourceList := fun _ => [("foo", 1)]

/-- **C3, counterexample.**  The claim as stated omits that the resource
must appear in the request map.  With an empty request, cell list `[0]`
holding only "foo", resource `r = "foo"` and mask `m = [0]`: the right-hand
side holds (the mask is a non-empty subset, the empty request is trivially
satisfied, and "foo" appears in the summed availability), yet
`generateResourceHints` emits no hint at all (it only iterates the request's
resources), so the claimed equivalence is false. -/
theorem generateResourceHints_claim_cex :
    ¬ ((∃ h ∈ hintsFor (generateResourceHints [0] [] availCex) "foo",
          h.NUMANodeAffinity = [0]) ↔
        (([0] : List Nat) ≠ [] ∧ ([0] : List Nat).Sublist [0] ∧
          rlLeq [] (sumAvailMask availCex [0]) = true ∧
          (alook (sumAvailMask availCex [0]) "foo").isSome = true)) := by
  decide

/-- **C3, amended.**  For every NUMA cell list, request map and per-cell
availability: `generateResourceHints` contains a hint with mask `m` for
resource `r` iff `m` is a non-empty subset of the cells whose summed
availability meets the request for every resource present in both, *`r`
appears in the request*, and `r` appears in that summed availability; and a
contained hint is `Preferred` iff its mask's bit count equals the minimum
bit count over all masks whose summed availability meets the request. -/
theorem generateResourceHints_spec (numaNodes : List Nat)
    (podRequests : ResourceList) (totalAvailable : Nat → ResourceList)
    (_hn : numaNodes.Nodup) (hreq : NodupKeys podRequests) :
    (∀ r m,
      (∃ h ∈ hintsFor (generateResourceHints numaNodes podRequests totalAvailable) r,
          h.NUMANodeAffinity = m) ↔
        (m ≠ [] ∧ m.Sublist numaNodes ∧
          rlLeq podRequests (sumAvailMask totalAvailable m) = true ∧
          (alook (sumAvailMask totalAvailable m) r).isSome = true ∧
          (alook podRequests r).isSome = true)) ∧
    (∀ r h,
      h ∈ hintsFor (generateResourceHints numaNodes podRequests totalAvailable) r →
      (h.Preferred = true ↔
        ∀ m', m' ≠ [] → m'.Sublist numaNodes →
          rlLeq podRequests (sumAvailMask totalAvailable m') = true →
          h.NUMANodeAffinity.length ≤ m'.length)) := by
  constructor
  · intro r m
    rw [generateResourceHints_eq numaNodes podRequests totalAvailable hreq r]
    constructor
    · rintro ⟨h, hmem, haff⟩
      rcases List.mem_map.mp hmem with ⟨m0, hm0, hfm⟩
      have haff0 : m0 = m := by
        rw [← haff, ← hfm]
      subst haff0
      rcases List.mem_filter.mp hm0 with ⟨henum, hemit⟩
      rcases (mem_masksEnum numaNodes m0).mp henum with ⟨hne, hsub⟩
      rw [emitsTo] at hemit
      simp only [Bool.and_eq_true] at hemit
      exact ⟨hne, hsub, hemit.1.1, hemit.2, hemit.1.2⟩
    · rintro ⟨hne, hsub, hsat, havail, hr⟩
      refine ⟨_, List.mem_map_of_mem _ (List.mem_filter.mpr
        ⟨(mem_masksEnum numaNodes m).mpr ⟨hne, hsub⟩, ?_⟩), rfl⟩
      rw [emitsTo]
      simp only [Bool.and_eq_true]
      exact ⟨⟨hsat, hr⟩, havail⟩
  · intro r h hmem
    rw [generateResourceHints_eq numaNodes podRequests totalAvailable hreq r] at hmem
    rcases List.mem_map.mp hmem with ⟨m0, hm0, hfm⟩
    rcases List.mem_filter.mp hm0 with ⟨henum, hemit⟩
    rcases (mem_masksEnum numaNodes m0).mp henum with ⟨hne, hsub⟩
    have hsat0 : rlLeq podRequests (sumAvailMask totalAvailable m0) = true := by
      rw [emitsTo] at hemit
      simp only [Bool.and_eq_true] at hemit
      exact hemit.1.1
    have hpref : h.Preferred =
        (m0.length ==
          minFold (fun m => rlLeq podRequests (sumAvailMask totalAvailable m))
            (masksEnum numaNodes) numaNodes.length) := by
      rw [← hfm]
    have haff : h.NUMANodeAffinity = m0 := by
      rw [← hfm]
    rw [hpref, haff]
    constructor
    · intro hbeq m' hne' hsub' hsat'
      have heq : m0.length =
          minFold (fun m => rlLeq podRequests (sumAvailMask totalAvailable m))
            (masksEnum numaNodes) numaNodes.length := by
        simpa using hbeq
      rw [heq]
      exact minFold_le_sat _ _ _ m' ((mem_masksEnum numaNodes m').mpr ⟨hne', hsub'⟩)
        hsat'
    · intro hmin
      have hle1 : minFold (fun m => rlLeq podRequests (sumAvailMask totalAvailable m))
          (masksEnum numaNodes) numaNodes.length ≤ m0.length :=
        minFold_le_sat _ _ _ m0 henum hsat0
      have hle2 : m0.length ≤
          minFold (fun m => rlLeq podRequests (sumAvailMask totalAvailable m))
            (masksEnum numaNodes) numaNodes.length := by
        rcases minFold_cases (fun m => rlLeq podRequests (sumAvailMask totalAvailable m))
            (masksEnum numaNodes) numaNodes.length with hcase | ⟨mw, hmw, hsatw, heqw⟩
        · rw [hcase]
          exact hsub.length_le
        · rw [heqw]
          rcases (mem_masksEnum numaNodes mw).mp hmw with ⟨hnew, hsubw⟩
          exact hmin mw hnew hsubw hsatw
      simp [le_antisymm hle1 hle2]

theorem generateResourceHints_spec_witness :
    (([0, 1] : List Nat).Nodup ∧ NodupKeys ([("cpu", 2000)] : ResourceList)) ∧
    ((∀ r m,
      (∃ h ∈ hintsFor (generateResourceHints [0, 1] [("cpu", 2000)] availCex) r,
          h.NUMANodeAffinity = m) ↔
        (m ≠ [] ∧ m.Sublist [0, 1] ∧
          rlLeq [("cpu", 2000)] (sumAvailMask availCex m) = true ∧
          (alook (sumAvailMask availCex m) r).isSome = true ∧
          (alook ([("cpu", 2000)] : ResourceList) r).isSome = true)) ∧
    (∀ r h,
      h ∈ hintsFor (generateResourceHints [0, 1] [("cpu", 2000)] availCex) r →
      (h.Preferred = true ↔
        ∀ m', m' ≠ [] → m'.Sublist [0, 1] →
          rlLeq [("cpu", 2000)] (sumAvailMask availCex m') = true →
          h.NUMANodeAffinity.length ≤ m'.length))) :=
  ⟨⟨by decide, by decide⟩,
    generateResourceHints_spec [0, 1] [("cpu", 2000)] availCex (by decide) (by decide)⟩

end HintLemmas

/-! ## Per-NUMA resource consumption: `allocateResourcesByHint` (claim C4) -/

/-- `allocateRes`: consume `min(available, request)` of a resource; the
three-way `Cmp` switch returns the updated available quantity, the updated
remaining request and the allocated amount. -/
def allocateRes (available request : Quantity) :
    Quantity × Quantity × Quantity :=
  if request < available then (available - request, 0, request)
  else if available < request then (0, request - available, available)
  else (0, 0, available)

/-- The outcome of consuming one NUMA cell's availability: the mutated
cell availability, the remaining requests, the per-resource allocated
amounts of this cell, and the resource names seen in this cell (the
`intersectionResources` insertions). -/
structure CellStep where
  allocatable : ResourceList
  remaining : ResourceList
  allocated : ResourceList
  names : List String
  deriving DecidableEq

/-- The inner `for resourceName, quantity := range requests` loop of
`allocateResourcesByHint` for one cell: resources missing from the cell
pass through untouched; present ones are consumed via `allocateRes`, and
only non-zero allocations are recorded in the cell's result. -/
def consumeCell (alloc : ResourceList) : ResourceList → CellStep
  | [] => ⟨alloc, [], [], []⟩
  | (resName, quantity) :: rest =>
    match alook alloc resName with
    | none =>
      let step := consumeCell alloc rest
      ⟨step.allocatable, (resName, quantity) :: step.remaining, step.allocated,
        step.names⟩
    | some allocatableQuantity =>
      let t := allocateRes allocatableQuantity quantity
      let step := consumeCell (alset alloc resName t.1) rest
      ⟨step.allocatable, (resName, t.2.1) :: step.remaining,
        if t.2.2 = 0 then step.allocated else (resName, t.2.2) :: step.allocated,
        resName :: step.names⟩

structure HintAllocState where
  remaining : ResourceList
  result : List NUMANodeResource
  names : List String
  deriving DecidableEq

/-- The `for _, numaNodeID := range options.hint.NUMANodeAffinity.GetBits()`
loop of `allocateResourcesByHint`: consume cell by cell in the mask's bit
order, append a cell's `NUMANodeResource` when it is not zero, and break
once every remaining request is zero. -/
def allocLoop (totalAvailable : Nat → ResourceList) :
    List Nat → ResourceList → HintAllocState
  | [], requests => ⟨requests, [], []⟩
  | numaNodeID :: rest, requests =>
    let step := consumeCell (totalAvailable numaNodeID) requests
    let cellResult : List NUMANodeResource :=
      if rlIsZero step.allocated then []
      else [{ node := numaNodeID, resources := step.allocated }]
    if rlIsZero step.remaining then ⟨step.remaining, cellResult, step.names⟩
    else
      let next := allocLoop totalAvailable rest step.remaining
      ⟨next.remaining, cellResult ++ next.result, step.names ++ next.names⟩

/-- The final reasons loop of `allocateResourcesByHint`: one
`"Insufficient NUMA <resource>"` line per resource of the (mutated)
request map that was seen in some visited cell yet still has a non-zero
remaining quantity. -/
def insufficientReasons (fin : HintAllocState) : List String :=
  (fin.remaining.filter
      (fun kv => decide (kv.1 ∈ fin.names) && decide (kv.2 ≠ 0))).map
    (fun kv => "Insufficient NUMA " ++ kv.1)

/-- The consumption core of `resourceManager.allocateResourcesByHint`
(after the availability read): run the per-cell loop over the hint mask's
bits and fail iff some insufficiency reason was produced. -/
def allocateResourcesByHint (totalAvailable : Nat → ResourceList)
    (requests : ResourceList) (maskBits : List Nat) :
    Except (List String) (List NUMANodeResource) :=
  if insufficientReasons (allocLoop totalAvailable maskBits requests) = []
  then Except.ok (allocLoop totalAvailable maskBits requests).result
  else Except.error (insufficientReasons (allocLoop totalAvailable maskBits requests))

/-- Availability fixture for the C4 witness: one CPU-only cell. -/
def c4Avail : Nat → ResourceList := fun _ => [("cpu", 1000)]

section HintConsumeLemmas

theorem allocateRes_remaining_nonneg (available request : Quantity) :
    0 ≤ (allocateRes available request).2.1 := by
  rw [allocateRes]
  split
  · exact le_refl 0
  · split
    · show 0 ≤ request - available
      next h1 h2 => exact Int.sub_nonneg.mpr (le_of_lt h2)
    · exact le_refl 0

theorem consumeCell_keys (alloc reqs : ResourceList) :
    (consumeCell alloc reqs).remaining.map Prod.fst = reqs.map Prod.fst := by
  induction reqs generalizing alloc with
  | nil => rfl
  | cons kv rest ih =>
    rcases kv with ⟨resName, quantity⟩
    rcases hh : alook alloc resName with _ | aq
    · simp only [consumeCell, hh, List.map_cons]
      rw [ih alloc]
    · simp only [consumeCell, hh, List.map_cons]
      rw [ih _]

theorem consumeCell_nonneg (alloc reqs : ResourceList)
    (h : ∀ kv ∈ reqs, 0 ≤ kv.2) :
    ∀ kv ∈ (consumeCell alloc reqs).remaining, 0 ≤ kv.2 := by
  induction reqs generalizing alloc with
  | nil => simp [consumeCell]
  | cons kv0 rest ih =>
    rcases kv0 with ⟨resName, quantity⟩
    have hrest : ∀ kv ∈ rest, 0 ≤ kv.2 :=
      fun kv hkv => h kv (List.mem_cons_of_mem _ hkv)
    rcases hh : alook alloc resName with _ | aq
    · simp only [consumeCell, hh]
      intro kv hkv
      rcases List.mem_cons.mp hkv with h1 | h2
      · rw [h1]
        exact h (resName, quantity) (List.mem_cons_self _ _)
      · exact ih alloc hrest kv h2
    · simp only [consumeCell, hh]
      intro kv hkv
      rcases List.mem_cons.mp hkv with h1 | h2
      · rw [h1]
        exact allocateRes_remaining_nonneg aq quantity
      · exact ih _ hrest kv h2

theorem consumeCell_names (alloc reqs : ResourceList) (r : String) :
    r ∈ (consumeCell alloc reqs).names ↔
      (∃ q, (r, q) ∈ reqs) ∧ (alook alloc r).isSome = true := by
  induction reqs generalizing alloc with
  | nil => simp [consumeCell]
  | cons kv0 rest ih =>
    rcases kv0 with ⟨resName, quantity⟩
    rcases hh : alook alloc resName with _ | aq
    · simp only [consumeCell, hh]
      rw [ih alloc]
      constructor
      · rintro ⟨⟨q, hq⟩, hs⟩
        exact ⟨⟨q, List.mem_cons_of_mem _ hq⟩, hs⟩
      · rintro ⟨⟨q, hq⟩, hs⟩
        rcases List.mem_cons.mp hq with h1 | h2
        · exfalso
          have hre : r = resName := by
            have := congrArg Prod.fst h1
            simpa using this
          rw [hre, hh] at hs
          simp at hs
        · exact ⟨⟨q, h2⟩, hs⟩
    · simp only [consumeCell, hh]
      by_cases hr : r = resName
      · subst hr
        constructor
        · intro _
          exact ⟨⟨quantity, List.mem_cons_self _ _⟩, by rw [hh]; rfl⟩
        · intro _
          exact List.mem_cons_self _ _
      · rw [List.mem_cons]
        constructor
        · intro h0
          rcases h0 with h0 | h0
          · exact absurd h0 hr
          · rcases (ih _).mp h0 with ⟨⟨q, hq⟩, hs⟩
            rw [alook_alset_ne _ _ _ _ hr] at hs
            exact ⟨⟨q, List.mem_cons_of_mem _ hq⟩, hs⟩
        · rintro ⟨⟨q, hq⟩, hs⟩
          right
          apply (ih _).mpr
          refine ⟨?_, by rw [alook_alset_ne _ _ _ _ hr]; exact hs⟩
          rcases List.mem_cons.mp hq with h1 | h2
          · exfalso
            apply hr
            have := congrArg Prod.fst h1
            simpa using this
          · exact ⟨q, h2⟩

theorem allocLoop_keys (totalAvailable : Nat → ResourceList)
    (maskBits : List Nat) (requests : ResourceList) :
    (allocLoop totalAvailable maskBits requests).remaining.map Prod.fst =
      requests.map Prod.fst := by
  induction maskBits generalizing requests with
  | nil => rfl
  | cons n rest ih =>
    by_cases hz : rlIsZero (consumeCell (totalAvailable n) requests).remaining = true
    · simp only [allocLoop, if_pos hz]
      exact consumeCell_keys _ _
    · simp only [allocLoop, if_neg hz]
      rw [ih _]
      exact consumeCell_keys _ _

theorem allocLoop_nonneg (totalAvailable : Nat → ResourceList)
    (maskBits : List Nat) (requests : ResourceList)
    (h : ∀ kv ∈ requests, 0 ≤ kv.2) :
    ∀ kv ∈ (allocLoop totalAvailable maskBits requests).remaining, 0 ≤ kv.2 := by
  induction maskBits generalizing requests with
  | nil => exact h
  | cons n rest ih =>
    by_cases hz : rlIsZero (consumeCell (totalAvailable n) requests).remaining = true
    · simp only [allocLoop, if_pos hz]
      exact consumeCell_nonneg _ _ h
    · simp only [allocLoop, if_neg hz]
      exact ih _ (consumeCell_nonneg _ _ h)

theorem allocLoop_names_sub (totalAvailable : Nat → ResourceList)
    (maskBits : List Nat) (requests : ResourceList) (r : String)
    (hr : r ∈ (allocLoop totalAvailable maskBits requests).names) :
    ∃ n ∈ maskBits, (alook (totalAvailable n) r).isSome = true := by
  induction maskBits generalizing requests with
  | nil => simp [allocLoop] at hr
  | cons n rest ih =>
    by_cases hz : rlIsZero (consumeCell (totalAvailable n) requests).remaining = true
    · simp only [allocLoop, if_pos hz] at hr
      exact ⟨n, List.mem_cons_self n rest,
        ((consumeCell_names (totalAvailable n) requests r).mp hr).2⟩
    · simp only [allocLoop, if_neg hz, List.mem_append] at hr
      rcases hr with h1 | h2
      · exact ⟨n, List.mem_cons_self n rest,
          ((consumeCell_names (totalAvailable n) requests r).mp h1).2⟩
      · rcases ih _ h2 with ⟨n', hn', hs⟩
        exact ⟨n', List.mem_cons_of_mem n hn', hs⟩

theorem allocLoop_names_super (totalAvailable : Nat → ResourceList)
    (maskBits : List Nat) (requests : ResourceList) (r : String) (n : Nat)
    (hpos : 0 < rlVal (allocLoop totalAvailable maskBits requests).remaining r)
    (hn : n ∈ maskBits) (hsome : (alook (totalAvailable n) r).isSome = true)
    (hkey : r ∈ requests.map Prod.fst) :
    r ∈ (allocLoop totalAvailable maskBits requests).names := by
  induction maskBits generalizing requests with
  | nil => simp at hn
  | cons n0 rest ih =>
    by_cases hz : rlIsZero (consumeCell (totalAvailable n0) requests).remaining = true
    · exfalso
      simp only [allocLoop, if_pos hz] at hpos
      rw [rlIsZero_val _ r hz] at hpos
      exact lt_irrefl 0 hpos
    · simp only [allocLoop, if_neg hz, List.mem_append] at hpos ⊢
      rcases List.mem_cons.mp hn with h1 | h2
      · left
        rw [consumeCell_names]
        refine ⟨?_, by rw [← h1]; exact hsome⟩
        rcases List.mem_map.mp hkey with ⟨kv, hkv, hfst⟩
        exact ⟨kv.2, by rw [← hfst]; exact hkv⟩
      · right
        refine ih _ hpos h2 ?_
        rw [consumeCell_keys]
        exact hkey

end HintConsumeLemmas

/-- **C4.** For a request map with unique keys and non-negative quantities:
`allocateResourcesByHint` fails (with "Insufficient NUMA" reasons) iff,
after consuming availability cell by cell in the hint mask's bit order,
some resource's remaining requested quantity is still positive and that
resource is present in the availability of at least one cell of the mask.
In particular a resource absent from every chosen cell never causes a
failure, however large its request. -/
theorem allocateResourcesByHint_error_iff (totalAvailable : Nat → ResourceList)
    (requests : ResourceList) (maskBits : List Nat)
    (hreq : NodupKeys requests) (hnn : ∀ kv ∈ requests, 0 ≤ kv.2) :
    (∃ rs, allocateResourcesByHint totalAvailable requests maskBits =
        Except.error rs) ↔
      ∃ r, 0 < rlVal (allocLoop totalAvailable maskBits requests).remaining r ∧
        ∃ n ∈ maskBits, (alook (totalAvailable n) r).isSome = true := by
  have hkeys := allocLoop_keys totalAvailable maskBits requests
  have hnodup : NodupKeys (allocLoop totalAvailable maskBits requests).remaining := by
    unfold NodupKeys keysList at hreq ⊢
    rw [hkeys]
    exact hreq
  have hvals := allocLoop_nonneg totalAvailable maskBits requests hnn
  by_cases hres :
      insufficientReasons (allocLoop totalAvailable maskBits requests) = []
  · rw [allocateResourcesByHint, if_pos hres]
    constructor
    · rintro ⟨rs, hrs⟩
      exact absurd hrs (by simp)
    · rintro ⟨r, hpos, n, hn, hsome⟩
      exfalso
      have hrk : r ∈ requests.map Prod.fst := by
        rcases hv : alook (allocLoop totalAvailable maskBits requests).remaining r
          with _ | v
        · rw [rlVal, hv] at hpos
          simp at hpos
        · rw [← hkeys]
          exact (alook_isSome_iff _ _).mp (by rw [hv]; rfl)
      have hname := allocLoop_names_super totalAvailable maskBits requests r n
        hpos hn hsome hrk
      rcases hv : alook (allocLoop totalAvailable maskBits requests).remaining r
        with _ | v
      · rw [rlVal, hv] at hpos
        simp at hpos
      · have hv0 : rlVal (allocLoop totalAvailable maskBits requests).remaining r =
            v := by
          rw [rlVal, hv]
          rfl
        rw [hv0] at hpos
        have hmem := alook_mem hv
        have hfmem : (r, v) ∈ (allocLoop totalAvailable maskBits requests).remaining.filter
            (fun kv => decide (kv.1 ∈ (allocLoop totalAvailable maskBits requests).names) &&
              decide (kv.2 ≠ 0)) := by
          rw [List.mem_filter]
          refine ⟨hmem, ?_⟩
          simp only [Bool.and_eq_true, decide_eq_true_eq]
          exact ⟨hname, ne_of_gt hpos⟩
        rw [insufficientReasons, List.map_eq_nil_iff] at hres
        rw [hres] at hfmem
        simp at hfmem
  · rw [allocateResourcesByHint, if_neg hres]
    constructor
    · intro _
      rw [insufficientReasons] at hres
      have hfil : (allocLoop totalAvailable maskBits requests).remaining.filter
          (fun kv => decide (kv.1 ∈ (allocLoop totalAvailable maskBits requests).names) &&
            decide (kv.2 ≠ 0)) ≠ [] := by
        intro hnil
        apply hres
        rw [hnil]
        rfl
      rcases List.exists_mem_of_ne_nil _ hfil with ⟨kv, hkv⟩
      rcases List.mem_filter.mp hkv with ⟨hmem, hcond⟩
      simp only [Bool.and_eq_true, decide_eq_true_eq] at hcond
      refine ⟨kv.1, ?_, allocLoop_names_sub totalAvailable maskBits requests kv.1
        hcond.1⟩
      have hvv : rlVal (allocLoop totalAvailable maskBits requests).remaining kv.1 =
          kv.2 := by
        rw [rlVal, alook_of_mem hnodup (show (kv.1, kv.2) ∈ _ from hmem)]
        rfl
      have hge : 0 ≤ kv.2 := hvals kv hmem
      rcases hcond with ⟨_, hne2⟩
      rw [hvv]
      exact lt_of_le_of_ne hge (Ne.symm hne2)
    · intro _
      exact ⟨_, rfl⟩

theorem allocateResourcesByHint_error_iff_witness :
    (NodupKeys ([("cpu", 4000)] : ResourceList) ∧
      (∀ kv ∈ ([("cpu", 4000)] : ResourceList), 0 ≤ kv.2)) ∧
    ((∃ rs, allocateResourcesByHint c4Avail [("cpu", 4000)] [0, 1] =
        Except.error rs) ↔
      ∃ r, 0 < rlVal (allocLoop c4Avail [0, 1] [("cpu", 4000)]).remaining r ∧
        ∃ n ∈ ([0, 1] : List Nat), (alook (c4Avail n) r).isSome = true) :=
  ⟨⟨by decide, by decide⟩,
    allocateResourcesByHint_error_iff c4Avail [("cpu", 4000)] [0, 1]
      (by decide) (by decide)⟩

/-! ## Available NUMA-node resources (claim C5) -/

/-- Modelled from the spec: `TopologyOptions` bundles the per-node inputs
of the allocator (`topology_options_manager.go` is not in the source
excerpt); only the fields the allocator reads are kept: `CPUTopology`
(nil-able), `NUMANodeResources`, `MaxRefCount` and `ReservedCPUs`. -/
structure TopologyOptions where
  cpuTopology : Option CPUTopology
  numaNodeResources : List NUMANodeResource
  maxRefCount : Int
  reservedCPUs : List Nat
  deriving DecidableEq

/-- The allocated `ResourceList` recorded for NUMA node `n` (empty when the
ledger has no entry, as the Go `nil` `allocatedRes` reads). -/
def allocatedAt (s : NodeAllocation) (n : Nat) : ResourceList :=
  match alook s.allocatedResources n with
  | none => []
  | some a => a.resources

/-- Modelled from the spec: the two-argument
`NodeAllocation.getAvailableNUMANodeResources(topologyOptions,
reusableResources)` that `resourceManager.getAvailableNUMANodeResources`
calls (the copy of `node_allocation.go` in the source excerpt predates the
`reusableResources` parameter): per NUMA node listed in the topology,
available is capacity minus allocated plus reusable with non-negative
clamping, and the second component returns the recorded allocations. -/
def NodeAllocation.getAvailableNUMANodeResources (s : NodeAllocation)
    (topologyOptions : TopologyOptions)
    (reusableResources : Nat → ResourceList) :
    List (Nat × ResourceList) × List (Nat × ResourceList) :=
  (topologyOptions.numaNodeResources.map (fun nr =>
      (nr.node,
        rlSubNonNeg (rlAdd nr.resources (reusableResources nr.node))
          (allocatedAt s nr.node))),
    topologyOptions.numaNodeResources.filterMap (fun nr =>
      (alook s.allocatedResources nr.node).map (fun a => (nr.node, a.resources))))

theorem alook_map_of_nodup {κ ν α : Type} [DecidableEq κ] (f : α → κ) (g : α → ν)
    (l : List α) (hn : (l.map f).Nodup) (a : α) (ha : a ∈ l) :
    alook (l.map (fun x => (f x, g x))) (f a) = some (g a) := by
  induction l with
  | nil => simp at ha
  | cons x t ih =>
    rw [List.map_cons] at hn
    rcases List.nodup_cons.mp hn with ⟨hx, ht⟩
    simp only [List.map_cons]
    rcases List.mem_cons.mp ha with h1 | h2
    · rw [h1, alook, if_pos rfl]
    · have hne : f a ≠ f x := by
        intro he
        apply hx
        rw [← he]
        exact List.mem_map_of_mem f h2
      rw [alook, if_neg hne]
      exact ih ht h2

/-- **C5.** For every ledger state, topology options and reusable-resource
map: for each NUMA node `n` listed in the topology options, the available
map of `getAvailableNUMANodeResources` holds an entry for `n` whose value
at every resource name equals `capacity[n] - allocated[n] +
reusableResources[n]` clamped at zero.  Hypotheses: the listed NUMA node
ids are distinct (they come from a map keyed by node), the recorded
allocated quantities are non-negative, and each reusable list has unique
keys (it is a Go map). -/
theorem getAvailableNUMANodeResources_spec (s : NodeAllocation)
    (topologyOptions : TopologyOptions) (reusableResources : Nat → ResourceList)
    (hnodes : (topologyOptions.numaNodeResources.map NUMANodeResource.node).Nodup)
    (hwf : ∀ kv ∈ s.allocatedResources, ∀ q ∈ kv.2.resources, 0 ≤ q.2)
    (hreu : ∀ n, NodupKeys (reusableResources n)) :
    ∀ nr ∈ topologyOptions.numaNodeResources, ∀ k,
      ∃ av,
        alook (s.getAvailableNUMANodeResources topologyOptions
            reusableResources).1 nr.node = some av ∧
        rlVal av k =
          max 0 (rlVal nr.resources k - rlVal (allocatedAt s nr.node) k +
            rlVal (reusableResources nr.node) k) := by
  intro nr hmem k
  have han : 0 ≤ rlVal (allocatedAt s nr.node) k := by
    rcases ha : alook s.allocatedResources nr.node with _ | a
    · have h0 : allocatedAt s nr.node = [] := by
        rw [allocatedAt, ha]
      rw [h0, rlVal]
      exact le_refl 0
    · have h0 : allocatedAt s nr.node = a.resources := by
        rw [allocatedAt, ha]
      rw [h0]
      exact rlVal_nonneg_of_entries _ (hwf _ (alook_mem ha)) k
  refine ⟨rlSubNonNeg (rlAdd nr.resources (reusableResources nr.node))
    (allocatedAt s nr.node), ?_, ?_⟩
  · exact alook_map_of_nodup NUMANodeResource.node _ _ hnodes nr hmem
  · rw [rlVal_rlSubNonNeg _ _ _ han, rlVal_rlAdd_nodup _ _ _ (hreu _)]
    congr 1
    ring

def c5Topo : TopologyOptions :=
  { cpuTopology := some wTopo
    numaNodeResources := [{ node := 0, resources := [("cpu", 4000)] }]
    maxRefCount := 1
    reservedCPUs := [] }

def c5Reuse : Nat → ResourceList := fun _ => [("cpu", 500)]

theorem getAvailableNUMANodeResources_spec_witness :
    ((c5Topo.numaNodeResources.map NUMANodeResource.node).Nodup ∧
      (∀ kv ∈ c8State.allocatedResources, ∀ q ∈ kv.2.resources, 0 ≤ q.2) ∧
      (∀ n, NodupKeys (c5Reuse n))) ∧
    (∀ nr ∈ c5Topo.numaNodeResources, ∀ k,
      ∃ av,
        alook (c8State.getAvailableNUMANodeResources c5Topo c5Reuse).1 nr.node =
          some av ∧
        rlVal av k =
          max 0 (rlVal nr.resources k - rlVal (allocatedAt c8State nr.node) k +
            rlVal (c5Reuse nr.node) k)) :=
  ⟨⟨by decide, by decide, fun _ => by show NodupKeys [("cpu", 500)]; decide⟩,
    getAvailableNUMANodeResources_spec c8State c5Topo c5Reuse (by decide)
      (by decide) (fun _ => by show NodupKeys [("cpu", 500)]; decide)⟩

inductive CPUBindPolicy where
  | default_ : CPUBindPolicy
  | fullPCPUs : CPUBindPolicy
  | spreadByPCPUs : CPUBindPolicy
  | constrainedBurst : CPUBindPolicy
  deriving DecidableEq

/-- The string value of a `schedulingconfig.CPUBindPolicy` constant (what
`%s` prints in the error message). -/
def CPUBindPolicy.name : CPUBindPolicy → String
  | CPUBindPolicy.default_ => "Default"
  | CPUBindPolicy.fullPCPUs => "FullPCPUs"
  | CPUBindPolicy.spreadByPCPUs => "SpreadByPCPUs"
  | CPUBindPolicy.constrainedBurst => "ConstrainedBurst"

/-- Modelled from the spec: `CPUDetails.KeepOnly` restricts the mapping to
the given CPUs (the repository's `cpu_topology.go` is not in the source
excerpt). -/
def keepOnly (details : List (Nat × CPUBase)) (cpus : List Nat) :
    List (Nat × CPUBase) :=
  details.filter (fun kv => decide (kv.1 ∈ cpus))

/-- Modelled from the spec: `CPUDetails.Cores` is the set of distinct
physical-core ids appearing in the mapping. -/
def coresOf (details : List (Nat × CPUBase)) : List Nat :=
  (details.map (fun kv => kv.2.coreID)).dedup

def determineFullPCPUs (cpus : List Nat) (details : List (Nat × CPUBase))
    (cpusPerCore : Nat) : Bool :=
  (coresOf (keepOnly details cpus)).length * cpusPerCore == cpus.length

def determineSpreadByPCPUs (cpus : List Nat) (details : List (Nat × CPUBase)) : Bool :=
  (coresOf (keepOnly details cpus)).length == cpus.length

def satisfiedRequiredCPUBindPolicy (policy : CPUBindPolicy) (cpus : List Nat)
    (topology : CPUTopology) : Except String Unit :=
  let satisfied :=
    match policy with
    | CPUBindPolicy.fullPCPUs =>
      determineFullPCPUs cpus topology.details topology.cpusPerCore
    | CPUBindPolicy.spreadByPCPUs => determineSpreadByPCPUs cpus topology.details
    | _ => true
  if satisfied then Except.ok ()
  else
    Except.error
      ("insufficient CPUs to satisfy required cpu bind policy " ++ policy.name)

/-- The physical cores covered by a CPU set under a topology: the image of
the core id over the CPUs that the topology knows. -/
def coveredCores (topology : CPUTopology) (cpus : List Nat) : Finset Nat :=
  ((cpus.filter (fun c => (alook topology.details c).isSome)).map
    (fun c => ((alook topology.details c).getD defaultCPUBase).coreID)).toFinset

/-- The imperative `KeepOnly`-then-`Cores` pipeline counts exactly the
covered cores. -/
theorem coresOf_keepOnly_card (topology : CPUTopology) (cpus : List Nat)
    (hdet : NodupKeys topology.details) :
    (coresOf (keepOnly topology.details cpus)).length =
      (coveredCores topology cpus).card := by
  rw [coresOf, ← List.card_toFinset, coveredCores]
  congr 1
  apply Finset.ext
  intro x
  simp only [List.mem_toFinset, List.mem_map, List.mem_filter, keepOnly,
    decide_eq_true_eq]
  constructor
  · rintro ⟨kv, ⟨hmem, hcpus⟩, hx⟩
    refine ⟨kv.1, ⟨hcpus, ?_⟩, ?_⟩
    · rw [alook_of_mem hdet (show (kv.1, kv.2) ∈ topology.details from hmem)]
      rfl
    · rw [alook_of_mem hdet (show (kv.1, kv.2) ∈ topology.details from hmem)]
      exact hx
  · rintro ⟨c, ⟨hcpus, hsome⟩, hx⟩
    rcases hb : alook topology.details c with _ | b
    · rw [hb] at hsome
      simp at hsome
    · refine ⟨(c, b), ⟨alook_mem hb, hcpus⟩, ?_⟩
      rw [hb] at hx
      exact hx

/-- **C9.** For every selected CPU set and topology:
`satisfiedRequiredCPUBindPolicy` succeeds under `FullPCPUs` iff the number
of distinct physical cores covered by the set times `CPUsPerCore` equals the
set's size, and under `SpreadByPCPUs` iff the number of distinct covered
cores equals the set's size; when the check fails the returned error names
the policy. -/
theorem satisfiedRequiredCPUBindPolicy_spec (topology : CPUTopology)
    (cpus : List Nat) (_hset : cpus.Nodup) (hdet : NodupKeys topology.details) :
    (satisfiedRequiredCPUBindPolicy CPUBindPolicy.fullPCPUs cpus topology =
        Except.ok () ↔
      (coveredCores topology cpus).card * topology.cpusPerCore = cpus.length) ∧
    (satisfiedRequiredCPUBindPolicy CPUBindPolicy.spreadByPCPUs cpus topology =
        Except.ok () ↔
      (coveredCores topology cpus).card = cpus.length) ∧
    (∀ policy : CPUBindPolicy,
      satisfiedRequiredCPUBindPolicy policy cpus topology ≠ Except.ok () →
      satisfiedRequiredCPUBindPolicy policy cpus topology =
        Except.error
          ("insufficient CPUs to satisfy required cpu bind policy " ++
            policy.name)) := by
  have hfull : determineFullPCPUs cpus topology.details topology.cpusPerCore = true ↔
      (coveredCores topology cpus).card * topology.cpusPerCore = cpus.length := by
    rw [determineFullPCPUs, coresOf_keepOnly_card topology cpus hdet]
    simp
  have hspread : determineSpreadByPCPUs cpus topology.details = true ↔
      (coveredCores topology cpus).card = cpus.length := by
    rw [determineSpreadByPCPUs, coresOf_keepOnly_card topology cpus hdet]
    simp
  refine ⟨?_, ?_, ?_⟩
  · simp only [satisfiedRequiredCPUBindPolicy]
    by_cases hs : determineFullPCPUs cpus topology.details topology.cpusPerCore = true
    · rw [if_pos hs]
      simp [hfull.mp hs]
    · rw [if_neg hs]
      constructor
      · intro he
        exact absurd he (by simp)
      · intro hcard
        exact absurd (hfull.mpr hcard) hs
  · simp only [satisfiedRequiredCPUBindPolicy]
    by_cases hs : determineSpreadByPCPUs cpus topology.details = true
    · rw [if_pos hs]
      simp [hspread.mp hs]
    · rw [if_neg hs]
      constructor
      · intro he
        exact absurd he (by simp)
      · intro hcard
        exact absurd (hspread.mpr hcard) hs
  · intro policy hne
    cases policy with
    | fullPCPUs =>
      simp only [satisfiedRequiredCPUBindPolicy] at hne ⊢
      by_cases hs : determineFullPCPUs cpus topology.details topology.cpusPerCore = true
      · rw [if_pos hs] at hne
        exact absurd rfl hne
      · rw [if_neg hs]
    | spreadByPCPUs =>
      simp only [satisfiedRequiredCPUBindPolicy] at hne ⊢
      by_cases hs : determineSpreadByPCPUs cpus topology.details = true
      · rw [if_pos hs] at hne
        exact absurd rfl hne
      · rw [if_neg hs]
    | default_ =>
      simp [satisfiedRequiredCPUBindPolicy] at hne
    | constrainedBurst =>
      simp [satisfiedRequiredCPUBindPolicy] at hne

theorem satisfiedRequiredCPUBindPolicy_spec_witness :
    (([0, 1] : List Nat).Nodup ∧ NodupKeys wTopo.details) ∧
    ((satisfiedRequiredCPUBindPolicy CPUBindPolicy.fullPCPUs [0, 1] wTopo =
        Except.ok () ↔
      (coveredCores wTopo [0, 1]).card * wTopo.cpusPerCore = ([0, 1] : List Nat).length) ∧
    (satisfiedRequiredCPUBindPolicy CPUBindPolicy.spreadByPCPUs [0, 1] wTopo =
        Except.ok () ↔
      (coveredCores wTopo [0, 1]).card = ([0, 1] : List Nat).length) ∧
    (∀ policy : CPUBindPolicy,
      satisfiedRequiredCPUBindPolicy policy [0, 1] wTopo ≠ Except.ok () →
      satisfiedRequiredCPUBindPolicy policy [0, 1] wTopo =
        Except.error
          ("insufficient CPUs to satisfy required cpu bind policy " ++
            policy.name))) :=
  ⟨⟨by decide, by decide⟩,
    satisfiedRequiredCPUBindPolicy_spec wTopo [0, 1] (by decide) (by decide)⟩

theorem getAvailableCPUs_spec_witness :
    (NodupKeys c8State.allocatedCPUs ∧ ([0] : List Nat).Nodup) ∧
    ((∀ c, alook (c8State.getAvailableCPUs wTopo 1 [3] [0]).2 c =
        adjInfo c8State.allocatedCPUs [0] c) ∧
      (∀ c, c ∈ (c8State.getAvailableCPUs wTopo 1 [3] [0]).1 ↔
        (c ∈ keysList wTopo.details ∧
          (∀ i, adjInfo c8State.allocatedCPUs [0] c = some i →
            i.refCount < 1) ∧
          c ∉ ([3] : List Nat)))) :=
  ⟨⟨by decide, by decide⟩,
    getAvailableCPUs_spec c8State wTopo 1 [3] [0] (by decide) (by decide)⟩

theorem nodeAllocation_refcount_invariant_witness :
    (∀ op ∈ wOps, opWF op = true) ∧
    (refVal (applyOps wTopo (NewNodeAllocation "n") wOps) 1 =
        (podMultiplicity (applyOps wTopo (NewNodeAllocation "n") wOps) 1 : Int) ∧
      (alook (applyOps wTopo (NewNodeAllocation "n") wOps).allocatedCPUs 1 = none ↔
        podMultiplicity (applyOps wTopo (NewNodeAllocation "n") wOps) 1 = 0)) :=
  ⟨by decide, nodeAllocation_refcount_invariant wTopo "n" wOps (by decide) 1⟩

/-! ## The `resourceManager` layer (claims C2, C10)

The manager keeps `nodeAllocations : map[string]*NodeAllocation` and a
`TopologyOptionsManager`; the latter is modelled as a total function
`String → TopologyOptions` (`GetTopologyOptions` returns an empty value
for unknown nodes).  `takePreferredCPUs` is not part of the source excerpt,
so the CPU selector is abstracted as a function parameter and the theorems
are quantified over it. -/

abbrev ManagerState := List (String × NodeAllocation)

/-- The signature of `takePreferredCPUs` (its defining file is not in the
source excerpt): topology, max ref count, available CPUs, preferred CPUs,
allocated CPU details, number of CPUs wanted, bind policy, exclusive
policy, NUMA allocate strategy. -/
abbrev TakeFn :=
  CPUTopology → Int → List Nat → List Nat → CPUDetails → Int → CPUBindPolicy →
    String → String → Except String (List Nat)

/-- Modelled from the spec: the `ErrNotFoundCPUTopology` message constant
(its defining file is not in the source excerpt; only its identity
matters here). -/
def ErrNotFoundCPUTopology : String := "cpu topology not found"

/-- Modelled from the spec: the `ErrInvalidCPUTopology` message constant
(its defining file is not in the source excerpt). -/
def ErrInvalidCPUTopology : String := "invalid cpu topology"

/-- The zero `CPUTopology` a nil pointer reads as in the model (Go would
panic on a nil dereference; the crash case is out of scope). -/
def emptyCPUTopology : CPUTopology :=
  { numCPUs := 0, numCores := 0, numSockets := 0, numNodes := 0, details := [] }

/-- Modelled from the spec: `CPUDetails.CPUsInCores` lists the CPUs whose
physical core is among the given ones (`cpu_topology.go` is not in the
source excerpt). -/
def cpusInCores (details : List (Nat × CPUBase)) (cores : List Nat) : List Nat :=
  (details.filter (fun kv => decide (kv.2.coreID ∈ cores))).map Prod.fst

/-- Modelled from the spec: `CPUDetails.CPUsInNUMANodes` lists the CPUs of
the given NUMA node (`cpu_topology.go` is not in the source excerpt). -/
def cpusInNUMANodes (details : List (Nat × CPUBase)) (n : Nat) : List Nat :=
  (details.filter (fun kv => decide (kv.2.nodeID = n))).map Prod.fst

/-- `cpuset.Union`: set union keeping the left operand's elements first. -/
def unionCPUs (a b : List Nat) : List Nat :=
  a ++ b.filter (fun c => decide (c ∉ a))

/-- `filterAvailableCPUsByRequiredCPUBindPolicy`: under a required
`FullPCPUs` policy, keep only CPUs of fully-available physical cores when
their count is a whole number of cores. -/
def filterAvailableCPUsByRequiredCPUBindPolicy (policy : CPUBindPolicy)
    (availableCPUs : List Nat) (cpuDetails : List (Nat × CPUBase))
    (cpusPerCore : Nat) : List Nat :=
  if policy = CPUBindPolicy.fullPCPUs then
    let cpus := cpusInCores cpuDetails (coresOf cpuDetails)
    if cpus.length % cpusPerCore ≠ 0 then availableCPUs else cpus
  else availableCPUs

/-- `ResourceOptions` (the request envelope of the allocator); the nil-able
`hint.NUMANodeAffinity` bitmask is an `Option` over its bit list. -/
structure ResourceOptions where
  numCPUsNeeded : Int
  requestCPUBind : Bool
  requests : ResourceList
  originalRequests : ResourceList
  requiredCPUBindPolicy : Bool
  cpuBindPolicy : CPUBindPolicy
  cpuExclusivePolicy : String
  preferredCPUs : List Nat
  reusableResources : Nat → ResourceList
  hintAffinity : Option (List Nat)
  topologyOptions : TopologyOptions

/-- `getOrCreateNodeAllocation`: read the per-node ledger, lazily inserting
a fresh empty one; returns the (possibly grown) map and the entry. -/
def getOrCreateNodeAllocation (s : ManagerState) (nodeName : String) :
    ManagerState × NodeAllocation :=
  match alook s nodeName with
  | some v => (s, v)
  | none =>
    (alset s nodeName (NewNodeAllocation nodeName), NewNodeAllocation nodeName)

/-- `resourceManager.GetAvailableCPUs`: reject a missing or invalid CPU
topology, otherwise delegate to the ledger's `getAvailableCPUs`. -/
def rmGetAvailableCPUs (tom : String → TopologyOptions) (s : ManagerState)
    (nodeName : String) (preferredCPUs : List Nat) :
    ManagerState × Except String (List Nat × CPUDetails) :=
  match (tom nodeName).cpuTopology with
  | none => (s, Except.error ErrNotFoundCPUTopology)
  | some topo =>
    if topo.isValid then
      let p := getOrCreateNodeAllocation s nodeName
      (p.1, Except.ok (p.2.getAvailableCPUs topo (tom nodeName).maxRefCount
        (tom nodeName).reservedCPUs preferredCPUs))
    else (s, Except.error ErrInvalidCPUTopology)

/-- `resourceManager.allocateResourcesByHint`: read the availability (lazily
creating the node's ledger), pick the request map by `requestCPUBind`, and
run the consumption core over the hint mask's bits. -/
def rmAllocateResourcesByHint (s : ManagerState) (nodeName : String)
    (options : ResourceOptions) :
    ManagerState × Except String (List NUMANodeResource) :=
  if options.topologyOptions.numaNodeResources = [] then
    (s, Except.error "insufficient resources on NUMA Node")
  else
    let p := getOrCreateNodeAllocation s nodeName
    let totalAvailable := (p.2.getAvailableNUMANodeResources
      options.topologyOptions options.reusableResources).1
    let requests := if options.requestCPUBind then options.originalRequests
      else options.requests
    match allocateResourcesByHint
        (fun numaNodeID => (alook totalAvailable numaNodeID).getD [])
        requests (options.hintAffinity.getD []) with
    | Except.ok result => (p.1, Except.ok result)
    | Except.error reasons =>
      (p.1, Except.error (String.intercalate "; " reasons))

/-- The per-NUMA-cell `takePreferredCPUs` loop of `allocateCPUSet`: scope
the availability to each allocated cell, size the take by the cell's CPU
millis (divided by 1000, clamped by the intersection), and union the
results. -/
def cellTakeLoop (take : TakeFn) (topo : CPUTopology) (maxRefCount : Int)
    (availableCPUs preferredCPUs : List Nat) (allocatedCPUs : CPUDetails)
    (bindPolicy : CPUBindPolicy) (exclusivePolicy strategy : String) :
    List NUMANodeResource → List Nat → Except String (List Nat)
  | [], result => Except.ok result
  | numaNode :: rest, result =>
    let cpusInNode := cpusInNUMANodes topo.details numaNode.node
    let availableCPUsInNUMANode :=
      availableCPUs.filter (fun c => decide (c ∈ cpusInNode))
    let numCPUs : Int := availableCPUsInNUMANode.length
    let nodeNumCPUsNeeded : Int := (rlVal numaNode.resources "cpu").tdiv 1000
    let numCPUs2 := if nodeNumCPUsNeeded < numCPUs then nodeNumCPUsNeeded
      else numCPUs
    match take topo maxRefCount availableCPUsInNUMANode preferredCPUs
        allocatedCPUs numCPUs2 bindPolicy exclusivePolicy strategy with
    | Except.error e => Except.error e
    | Except.ok cpus =>
      cellTakeLoop take topo maxRefCount availableCPUs preferredCPUs
        allocatedCPUs bindPolicy exclusivePolicy strategy rest
        (unionCPUs result cpus)

/-- The pure tail of `allocateCPUSet` after the availability read: optional
required-policy filtering, the size check, the per-cell loop with its
exact-count check, the residual take, and the final policy validation. -/
def allocateCPUSetCore (take : TakeFn) (topo : CPUTopology) (maxRefCount : Int)
    (options : ResourceOptions) (strategy : String) (availableCPUs0 : List Nat)
    (allocatedCPUs : CPUDetails) (allocatedNUMANodes : List NUMANodeResource) :
    Except String (List Nat) :=
  let availableCPUs :=
    if options.requiredCPUBindPolicy then
      filterAvailableCPUsByRequiredCPUBindPolicy options.cpuBindPolicy
        availableCPUs0 (keepOnly topo.details availableCPUs0) topo.cpusPerCore
    else availableCPUs0
  if (availableCPUs.length : Int) < options.numCPUsNeeded then
    Except.error "not enough cpus available to satisfy request"
  else
    let phase1 : Except String (List Nat × Int) :=
      if allocatedNUMANodes = [] then Except.ok ([], options.numCPUsNeeded)
      else
        match cellTakeLoop take topo maxRefCount availableCPUs
            options.preferredCPUs allocatedCPUs options.cpuBindPolicy
            options.cpuExclusivePolicy strategy allocatedNUMANodes [] with
        | Except.error e => Except.error e
        | Except.ok result =>
          if options.numCPUsNeeded - (result.length : Int) ≠ 0 then
            Except.error "not enough cpus available to satisfy request"
          else Except.ok (result, options.numCPUsNeeded - (result.length : Int))
    match phase1 with
    | Except.error e => Except.error e
    | Except.ok pr =>
      let phase2 : Except String (List Nat) :=
        if 0 < pr.2 then
          match take topo maxRefCount
              (availableCPUs.filter (fun c => decide (c ∉ pr.1)))
              options.preferredCPUs allocatedCPUs pr.2 options.cpuBindPolicy
              options.cpuExclusivePolicy strategy with
          | Except.error e => Except.error e
          | Except.ok remainingCPUs => Except.ok (unionCPUs pr.1 remainingCPUs)
        else Except.ok pr.1
      match phase2 with
      | Except.error e => Except.error e
      | Except.ok result =>
        if options.requiredCPUBindPolicy then
          match satisfiedRequiredCPUBindPolicy options.cpuBindPolicy result
              topo with
          | Except.error e => Except.error e
          | Except.ok _ => Except.ok result
        else Except.ok result

/-- `resourceManager.allocateCPUSet`: read availability through the public
`GetAvailableCPUs` (which may lazily create the ledger), then compute the
CPU set purely; the CPU details of `options.topologyOptions` drive the
rest. -/
def rmAllocateCPUSet (tom : String → TopologyOptions) (strategy : String)
    (take : TakeFn) (s : ManagerState) (nodeName : String)
    (allocatedNUMANodes : List NUMANodeResource) (options : ResourceOptions) :
    ManagerState × Except String (List Nat) :=
  match rmGetAvailableCPUs tom s nodeName options.preferredCPUs with
  | (s1, Except.error e) => (s1, Except.error e)
  | (s1, Except.ok avail) =>
    (s1, allocateCPUSetCore take
      (options.topologyOptions.cpuTopology.getD emptyCPUTopology)
      options.topologyOptions.maxRefCount options strategy avail.1 avail.2
      allocatedNUMANodes)

/-- The `requestCPUBind` tail of `Allocate`. -/
def rmAllocateCPUPhase (tom : String → TopologyOptions) (strategy : String)
    (take : TakeFn) (s : ManagerState) (nodeName : String)
    (options : ResourceOptions) (allocation : PodAllocation) :
    ManagerState × Except String PodAllocation :=
  if options.requestCPUBind then
    match rmAllocateCPUSet tom strategy take s nodeName
        allocation.numaNodeResources options with
    | (s2, Except.error e) => (s2, Except.error e)
    | (s2, Except.ok cpus) => (s2, Except.ok { allocation with cpuSet := cpus })
  else (s, Except.ok allocation)

/-- `resourceManager.Allocate`: build the allocation envelope, run the
per-NUMA consumption when a hint affinity is set, then the CPU phase when
CPU binding is requested; errors propagate without further steps. -/
def rmAllocate (tom : String → TopologyOptions) (strategy : String)
    (take : TakeFn) (s : ManagerState)
    (nodeName podUID podNamespace podName : String)
    (options : ResourceOptions) : ManagerState × Except String PodAllocation :=
  let allocation : PodAllocation :=
    { uid := podUID, pnamespace := podNamespace, pname := podName,
      cpuSet := [], cpuExclusivePolicy := options.cpuExclusivePolicy,
      numaNodeResources := [] }
  match options.hintAffinity with
  | none => rmAllocateCPUPhase tom strategy take s nodeName options allocation
  | some _ =>
    match rmAllocateResourcesByHint s nodeName options with
    | (s1, Except.error e) => (s1, Except.error e)
    | (s1, Except.ok resources) =>
      rmAllocateCPUPhase tom strategy take s1 nodeName options
        { allocation with numaNodeResources := resources }

/-- `resourceManager.Update`: a missing or invalid CPU topology returns
silently; otherwise the pod allocation is recorded in the node's ledger. -/
def rmUpdate (tom : String → TopologyOptions) (s : ManagerState)
    (nodeName : String) (allocation : PodAllocation) : ManagerState :=
  match (tom nodeName).cpuTopology with
  | none => s
  | some topo =>
    if topo.isValid then
      let p := getOrCreateNodeAllocation s nodeName
      alset p.1 nodeName (p.2.update allocation topo)
    else s

/-- `resourceManager.Release`. -/
def rmRelease (s : ManagerState) (nodeName podUID : String) : ManagerState :=
  let p := getOrCreateNodeAllocation s nodeName
  alset p.1 nodeName (p.2.release podUID)

/-- The per-node view of the manager map: a node missing from
`nodeAllocations` reads as the fresh empty `NodeAllocation` that
`getOrCreateNodeAllocation` would create for it. -/
def nodeView (s : ManagerState) (n : String) : NodeAllocation :=
  (alook s n).getD (NewNodeAllocation n)

section ManagerFrame

theorem nodeView_getOrCreate (s : ManagerState) (nodeName n : String) :
    nodeView (getOrCreateNodeAllocation s nodeName).1 n = nodeView s n := by
  rcases h : alook s nodeName with _ | v
  · simp only [getOrCreateNodeAllocation, h]
    by_cases hn : n = nodeName
    · subst hn
      simp [nodeView, alook_alset_self, h]
    · simp [nodeView, alook_alset_ne _ _ _ _ hn]
  · simp only [getOrCreateNodeAllocation, h]

theorem nodeView_rmGetAvailableCPUs (tom : String → TopologyOptions)
    (s : ManagerState) (nodeName : String) (preferredCPUs : List Nat)
    (n : String) :
    nodeView (rmGetAvailableCPUs tom s nodeName preferredCPUs).1 n =
      nodeView s n := by
  rcases ht : (tom nodeName).cpuTopology with _ | topo
  · simp only [rmGetAvailableCPUs, ht]
  · by_cases hv : topo.isValid = true
    · simp only [rmGetAvailableCPUs, ht, if_pos hv]
      exact nodeView_getOrCreate s nodeName n
    · simp only [rmGetAvailableCPUs, ht, if_neg hv]

theorem nodeView_rmAllocateResourcesByHint (s : ManagerState)
    (nodeName : String) (options : ResourceOptions) (n : String) :
    nodeView (rmAllocateResourcesByHint s nodeName options).1 n =
      nodeView s n := by
  by_cases he : options.topologyOptions.numaNodeResources = []
  · simp only [rmAllocateResourcesByHint, if_pos he]
  · simp only [rmAllocateResourcesByHint, if_neg he]
    rcases hm : allocateResourcesByHint
        (fun numaNodeID =>
          (alook ((getOrCreateNodeAllocation s nodeName).2.getAvailableNUMANodeResources
            options.topologyOptions options.reusableResources).1 numaNodeID).getD [])
        (if options.requestCPUBind then options.originalRequests
          else options.requests)
        (options.hintAffinity.getD []) with _ | result
    · simp only [hm]
      exact nodeView_getOrCreate s nodeName n
    · simp only [hm]
      exact nodeView_getOrCreate s nodeName n

theorem nodeView_rmAllocateCPUSet (tom : String → TopologyOptions)
    (strategy : String) (take : TakeFn) (s : ManagerState) (nodeName : String)
    (allocatedNUMANodes : List NUMANodeResource) (options : ResourceOptions)
    (n : String) :
    nodeView (rmAllocateCPUSet tom strategy take s nodeName allocatedNUMANodes
        options).1 n = nodeView s n := by
  have hga := nodeView_rmGetAvailableCPUs tom s nodeName options.preferredCPUs n
  rcases hm : rmGetAvailableCPUs tom s nodeName options.preferredCPUs with ⟨s1, r⟩
  rw [hm] at hga
  rcases r with e | avail
  · simp only [rmAllocateCPUSet, hm]
    exact hga
  · simp only [rmAllocateCPUSet, hm]
    exact hga

theorem nodeView_rmAllocateCPUPhase (tom : String → TopologyOptions)
    (strategy : String) (take : TakeFn) (s : ManagerState) (nodeName : String)
    (options : ResourceOptions) (allocation : PodAllocation) (n : String) :
    nodeView (rmAllocateCPUPhase tom strategy take s nodeName options
        allocation).1 n = nodeView s n := by
  by_cases hb : options.requestCPUBind = true
  · have hcs := nodeView_rmAllocateCPUSet tom strategy take s nodeName
      allocation.numaNodeResources options n
    rcases hm : rmAllocateCPUSet tom strategy take s nodeName
        allocation.numaNodeResources options with ⟨s2, r⟩
    rw [hm] at hcs
    rcases r with e | cpus
    · simp only [rmAllocateCPUPhase, if_pos hb, hm]
      exact hcs
    · simp only [rmAllocateCPUPhase, if_pos hb, hm]
      exact hcs
  · simp only [rmAllocateCPUPhase, if_neg hb]

end ManagerFrame

/-- **C2.** `Allocate` never mutates any node's recorded allocation state:
for every topology-options source, NUMA allocate strategy, CPU selector,
manager state, node, pod and request options, the per-node view
(`allocatedPods`, `allocatedCPUs`, `allocatedResources`, with an absent
node reading as the fresh empty ledger) after `Allocate` equals the view
before, whether the call returns a `PodAllocation` or an error.  Only the
lazy insertion of fresh empty ledgers can change the underlying map, and
that is invisible in the view. -/
theorem rmAllocate_frame (tom : String → TopologyOptions) (strategy : String)
    (take : TakeFn) (s : ManagerState)
    (nodeName podUID podNamespace podName : String)
    (options : ResourceOptions) (n : String) :
    nodeView (rmAllocate tom strategy take s nodeName podUID podNamespace
        podName options).1 n = nodeView s n := by
  rcases hh : options.hintAffinity with _ | bits
  · simp only [rmAllocate, hh]
    exact nodeView_rmAllocateCPUPhase tom strategy take s nodeName options _ n
  · have hrh := nodeView_rmAllocateResourcesByHint s nodeName options n
    rcases hm : rmAllocateResourcesByHint s nodeName options with ⟨s1, r⟩
    rw [hm] at hrh
    rcases r with e | resources
    · simp only [rmAllocate, hh, hm]
      exact hrh
    · simp only [rmAllocate, hh, hm]
      exact (nodeView_rmAllocateCPUPhase tom strategy take s1 nodeName options
        _ n).trans hrh

/-- **C10.** When the node's `TopologyOptions` carries no CPU topology, or
an invalid one, `resourceManager.Update` records nothing: the manager map
is returned exactly as it was (so every node's `allocatedPods`,
`allocatedCPUs` and `allocatedResources` are unchanged), and no error or
other signal is produced (`Update` has no error channel at all). -/
theorem rmUpdate_noop (tom : String → TopologyOptions) (s : ManagerState)
    (nodeName : String) (allocation : PodAllocation)
    (h : ∀ t, (tom nodeName).cpuTopology = some t → t.isValid = false) :
    rmUpdate tom s nodeName allocation = s := by
  rcases ht : (tom nodeName).cpuTopology with _ | topo
  · simp only [rmUpdate, ht]
  · have hv := h topo ht
    simp only [rmUpdate, ht, hv]
    simp

/-- Topology-options source for the C10 witness: no CPU topology anywhere. -/
def c10Tom : String → TopologyOptions := fun _ =>
  { cpuTopology := none, numaNodeResources := [], maxRefCount := 1,
    reservedCPUs := [] }

theorem rmUpdate_noop_witness :
    (∀ t, (c10Tom "node-1").cpuTopology = some t → t.isValid = false) ∧
    rmUpdate c10Tom [] "node-1" wPodA = [] :=
  ⟨fun _ ht => Option.noConfusion ht,
    rmUpdate_noop c10Tom [] "node-1" wPodA (fun _ ht => Option.noConfusion ht)⟩

end KoordNuma
